import Mathlib

/-!
Verification of the MafLib dense linear-algebra core (Cholesky, PLU, QR,
GEMV/GER/dot kernels) against its natural-language specification.

The C++ sources under `src/include/MafLib` are shallowly embedded here:

* `Matrix<T>` (row-major owning buffer) becomes `maf.Mat α`: explicit
  `rows`/`cols` plus an entry function.  Writes through `Matrix::at` /
  `row_span` become functional updates (`maf.Mat.set`).
* C++ exceptions become the `maf.CppError` inductive carrying the exception
  class (`std::invalid_argument`, `std::runtime_error`, `std::out_of_range`)
  and the exact message string; fallible functions return `Except`.
* `size_t` loops become structurally recursive loop combinators
  (`maf.forRange`, `maf.forStep`, with `Except`-monadic variants); the OpenMP
  pragmas in the source only parallelise independent iterations and do not
  change the sequential semantics embedded here.
* element types (`float`/`double`) are idealised as a `LinearOrderedField`;
  `std::sqrt` is passed as an explicit function parameter, instantiated with
  `Real.sqrt` where a genuine square root is needed and with concrete
  rational stand-ins for executable witnesses (the error-path theorems hold
  for every sqrt function).
-/

namespace maf

/-- C++ exception model: exception class plus message, as thrown by the
sources (`std::invalid_argument`, `std::runtime_error`, `std::out_of_range`). -/
inductive CppError : Type where
  | invalid_argument (msg : String) : CppError
  | runtime_error (msg : String) : CppError
  | out_of_range (msg : String) : CppError
deriving DecidableEq, Repr

/-- True for the `std::invalid_argument` exception class. -/
def CppError.isInvalidArgument : CppError → Bool
  | .invalid_argument _ => true
  | _ => false

/-- True for the `std::runtime_error` exception class. -/
def CppError.isRuntimeError : CppError → Bool
  | .runtime_error _ => true
  | _ => false

/-- Model of `maf::math::Matrix<T>`: row-major dense matrix.  The contiguous buffer of
`rows*cols` elements is modelled by the entry function; `entry i j` is the
buffer element at index `i*cols + j` for in-range indices. -/
structure Mat (α : Type) where
  rows : Nat
  cols : Nat
  entry : Nat → Nat → α

/-- Model of `Matrix<T>::Matrix()`: default constructor, an empty 0x0 matrix (the
out-of-range entry function is irrelevant; 0 matches the value-initialised
empty buffer). -/
def Mat.empty (α : Type) [Zero α] : Mat α := ⟨0, 0, fun _ _ => 0⟩

/-- Write to one element, as through `Matrix::at(i,j) = v` / `row_span(i)[j] = v`. -/
def Mat.set {α : Type} (A : Mat α) (i j : Nat) (v : α) : Mat α :=
  ⟨A.rows, A.cols, fun r c => if r = i ∧ c = j then v else A.entry r c⟩

/-- Readback of the in-range entries as nested lists (row-major), used to
evaluate results on concrete inputs. -/
def Mat.toLists {α : Type} (A : Mat α) : List (List α) :=
  (List.range A.rows).map (fun i => (List.range A.cols).map (fun j => A.entry i j))

/-- Build a matrix from nested lists (row-major); entries outside the lists
default to 0.  Mirrors `Matrix(rows, cols, std::vector<std::vector<T>>)`
after its shape checks have passed. -/
def Mat.ofLists {α : Type} [Zero α] (rows cols : Nat) (data : List (List α)) : Mat α :=
  ⟨rows, cols, fun i j => ((data.getD i []).getD j 0)⟩

/-- Model of `maf::util::Orientation`: ROW or COLUMN tag on vectors. -/
inductive Orient : Type where
  | R : Orient
  | C : Orient
deriving DecidableEq, Repr

/-- Model of `maf::math::Vector<T>`: contiguous buffer plus orientation tag. -/
structure Vec (α : Type) where
  size : Nat
  orient : Orient
  entry : Nat → α

/-- Readback of a vector's in-range entries. -/
def Vec.toList {α : Type} (v : Vec α) : List α :=
  (List.range v.size).map v.entry

/-- Model of `maf::math::VectorView<T>`: non-owning strided window (data pointer plus
increment), modelled by its logical length and access function
`ind ↦ data[ind*inc]`. -/
structure VView (α : Type) where
  size : Nat
  entry : Nat → α

/-- Model of `maf::math::MatrixView<T>`: non-owning window (data pointer, extents,
stride), modelled by its logical extents and access function
`(r,c) ↦ data[r*stride + c]`. -/
structure MView (α : Type) where
  rows : Nat
  cols : Nat
  entry : Nat → Nat → α

/-- Model of `Matrix<T>::view(row, col, height, width)` after its checks have passed:
the window's `(i,j)` element aliases the parent's `(row+i, col+j)` element. -/
def Mat.view {α : Type} (A : Mat α) (row col height width : Nat) : MView α :=
  ⟨height, width, fun i j => A.entry (row + i) (col + j)⟩

/-- Model of `Vector<T>::view(start, length)` (increment 1). -/
def Vec.view {α : Type} (v : Vec α) (start length : Nat) : VView α :=
  ⟨length, fun i => v.entry (start + i)⟩

/-! ### Loop combinators

`for (j = lo; j < hi; ++j) body;` over a loop-carried state, plus a
step-`s` variant for the blocked loops (`jj += BLOCK_SIZE`) and
`Except`-monadic variants for bodies that can throw. -/

/-- Fuel-indexed body of `forRange` (structural recursion on the remaining
iteration count, so concrete runs reduce in the kernel). -/
def forRangeF {σ : Type} (fuel lo : Nat) (f : σ → Nat → σ) (s : σ) : σ :=
  match fuel with
  | 0 => s
  | fuel' + 1 => forRangeF fuel' (lo + 1) f (f s lo)

/-- Sequential `for` loop from `lo` (inclusive) to `hi` (exclusive). -/
def forRange {σ : Type} (lo hi : Nat) (f : σ → Nat → σ) (s : σ) : σ :=
  forRangeF (hi - lo) lo f s

/-- Fuel-indexed body of `forStep`. -/
def forStepF {σ : Type} (fuel lo hi step : Nat) (f : σ → Nat → σ) (s : σ) : σ :=
  match fuel with
  | 0 => s
  | fuel' + 1 =>
    if lo < hi ∧ 0 < step then forStepF fuel' (lo + step) hi step f (f s lo) else s

/-- Sequential `for` loop with stride `step` (used with `BLOCK_SIZE`). -/
def forStep {σ : Type} (lo hi step : Nat) (f : σ → Nat → σ) (s : σ) : σ :=
  forStepF (hi - lo) lo hi step f s

/-- Fuel-indexed body of `forRangeM`. -/
def forRangeMF {σ ε : Type} (fuel lo : Nat) (f : σ → Nat → Except ε σ) (s : σ) :
    Except ε σ :=
  match fuel with
  | 0 => .ok s
  | fuel' + 1 =>
    match f s lo with
    | .error e => .error e
    | .ok s' => forRangeMF fuel' (lo + 1) f s'

/-- A `for` loop whose body may throw: the first error aborts the loop. -/
def forRangeM {σ ε : Type} (lo hi : Nat) (f : σ → Nat → Except ε σ) (s : σ) :
    Except ε σ :=
  forRangeMF (hi - lo) lo f s

/-- Fuel-indexed body of `forStepM`. -/
def forStepMF {σ ε : Type} (fuel lo hi step : Nat) (f : σ → Nat → Except ε σ)
    (s : σ) : Except ε σ :=
  match fuel with
  | 0 => .ok s
  | fuel' + 1 =>
    if lo < hi ∧ 0 < step then
      match f s lo with
      | .error e => .error e
      | .ok s' => forStepMF fuel' (lo + step) hi step f s'
    else .ok s

/-- Strided `for` loop whose body may throw. -/
def forStepM {σ ε : Type} (lo hi step : Nat) (f : σ → Nat → Except ε σ) (s : σ) :
    Except ε σ :=
  forStepMF (hi - lo) lo hi step f s

/-! ### Utility layer (`MafLib/utility/Math.hpp`) -/

/-- `BLOCK_SIZE` from `utility/Math.hpp`: block width of the blocked algorithms. -/
def BLOCK_SIZE : Nat := 64

/-- `EPSILON` from `utility/Math.hpp`: default tolerance `1e-6` for floating
point comparisons (the decimal literal, idealised as an exact constant). -/
def EPSILON {α : Type} [LinearOrderedField α] : α := 1 / 1000000

/-- Tolerance `1e-9` used by PLU's near-zero pivot checks. -/
def EPS9 {α : Type} [LinearOrderedField α] : α := 1 / 1000000000

/-- Model of `maf::util::is_close(v1, v2, epsilon)`:
`std::abs(v1 - v2) < epsilon` (strict). -/
def is_close {α : Type} [LinearOrderedField α] (v1 v2 epsilon : α) : Bool :=
  |v1 - v2| < epsilon

/-! ### Matrix checkers and factories -/

/-- Model of `Matrix<T>::is_square()`. -/
def Mat.is_square {α : Type} (A : Mat α) : Bool := A.rows = A.cols

/-- Model of `Matrix<T>::is_symmetric()` (`MatrixCheckers.hpp`): false for
non-square input, otherwise checks `is_close(at(i,j), at(j,i))` with the
default `EPSILON` tolerance for every `i` and every `j > i`. -/
def Mat.is_symmetric {α : Type} [LinearOrderedField α] (A : Mat α) : Bool :=
  A.is_square &&
    (List.range A.rows).all (fun i =>
      (List.range' (i + 1) (A.cols - (i + 1)) 1).all (fun j =>
        is_close (A.entry i j) (A.entry j i) EPSILON))

/-- Model of `maf::math::identity_matrix<T>(n)` (`MatrixFactories.hpp`): the
`n × n` matrix with ones on the diagonal, zeros elsewhere.  (The factory
itself throws for `n = 0`; it is only called with `n > 0` here.) -/
def identity_matrix {α : Type} [Zero α] [One α] (n : Nat) : Mat α :=
  ⟨n, n, fun i j => if i = j then 1 else 0⟩

/-- Model of the dimensioned constructor `Matrix<T>(rows, cols)`
(`MatrixConstructors.hpp`): rejects zero dimensions, otherwise yields the
`rows × cols` matrix with value-initialised (zero) storage. -/
def Mat.create (α : Type) [Zero α] (rows cols : Nat) : Except CppError (Mat α) :=
  if rows = 0 || cols = 0 then
    .error (.invalid_argument "Matrix dimensions must be greater than zero.")
  else .ok ⟨rows, cols, fun _ _ => 0⟩

/-- Model of the constructor `Matrix<T>(rows, cols, const std::vector<T>&)`:
rejects zero dimensions, then a data size different from `rows*cols`. -/
def Mat.createFromVec (α : Type) [Zero α] (rows cols : Nat) (data : List α) :
    Except CppError (Mat α) :=
  if rows = 0 || cols = 0 then
    .error (.invalid_argument "Matrix dimensions must be greater than zero.")
  else if data.length ≠ rows * cols then
    .error (.invalid_argument "Data size does not match matrix size.")
  else .ok ⟨rows, cols, fun i j => data.getD (i * cols + j) 0⟩

/-! ### Summation loops

The `sum += f(k)` accumulation loops of the kernels, written with the same
loop combinator as every other loop, plus their closed form. -/

/-- An accumulation loop `for (k = lo; k < hi; ++k) sum += f k;` starting
from `sum = 0`. -/
def sumRange {α : Type} [AddCommMonoid α] (lo hi : Nat) (f : Nat → α) : α :=
  forRange lo hi (fun s k => s + f k) 0

/-! ### Kernel layer (`ViewKernels.hpp`)

The `__APPLE__`/Accelerate fast paths are platform conditional compilation;
the portable manual paths below are the semantics guaranteed on every
platform (the spec requires the backend to agree with them).  The OpenMP
size thresholds select between a parallel and a serial loop with identical
bodies, so both branches have the single meaning embedded here. -/

namespace kernels

/-- Model of `maf::math::kernels::OP`. -/
inductive OP : Type where
  | NoTrans : OP
  | Trans : OP
deriving DecidableEq, Repr

/-- Model of `kernels::gemv(trans, A, x)` (manual path).  `castT`/`castU`
stand for the `static_cast<R>` promotions of the element types of `A` and
`x` into their common type `R = std::common_type_t<T, U>`.
For `NoTrans` the output has length `A.row_count()`, orientation COLUMN and
`y[i] = Σ_j A[i][j]·x[j]`; for `Trans` it has length `A.column_count()`,
orientation ROW and `y[j] = Σ_i x[i]·A[i][j]`, with the products accumulated
exactly as in `detail::no_trans_gemv` / `detail::trans_gemv`. -/
def gemv {T U R : Type} [AddCommMonoid R] [Mul R] (castT : T → R) (castU : U → R)
    (trans : OP) (A : MView T) (x : VView U) : Vec R :=
  let out_size := if trans = OP.NoTrans then A.rows else A.cols
  let orient := if trans = OP.NoTrans then Orient.C else Orient.R
  match trans with
  | OP.NoTrans =>
      ⟨out_size, orient, fun i => sumRange 0 A.cols (fun j => castT (A.entry i j) * castU (x.entry j))⟩
  | OP.Trans =>
      ⟨out_size, orient, fun j => sumRange 0 A.rows (fun i => castU (x.entry i) * castT (A.entry i j))⟩

/-- Model of `kernels::ger(A, x, y, alpha)` (manual path): in-place rank-1
update `A[i][j] += alpha·x[i]·y[j]` over a view of extents `h × w` anchored
at `(r0, c0)` of the parent matrix; the view writes through to the parent. -/
def ger {α : Type} [LinearOrderedField α] (A : Mat α) (r0 c0 h w : Nat)
    (x y : Nat → α) (alpha : α) : Mat α :=
  ⟨A.rows, A.cols, fun r c =>
    if r0 ≤ r ∧ r < r0 + h ∧ c0 ≤ c ∧ c < c0 + w then
      A.entry r c + alpha * x (r - r0) * y (c - c0)
    else A.entry r c⟩

/-- Model of `kernels::dot(x, y)` as written (portable build): it throws
`std::invalid_argument` when the sizes differ, and otherwise runs the
accumulation loop into a local `result` — but the function body ends without
a `return` statement, so the deduced (`auto`) return type of the portable
build is `void` and no value is returned.  That outcome is modelled by
`Unit`; the value the discarded local holds is `dot_fallback_result`. -/
def dot {T U : Type} (x : VView T) (y : VView U) : Except CppError Unit :=
  if x.size ≠ y.size then
    .error (.invalid_argument "Vectors must be of same size for dot product!")
  else .ok ()

/-- The value accumulated into the local `result` by `kernels::dot`'s manual
fallback loop: `Σ_i static_cast<R>(x[i]) * static_cast<R>(y[i])`. -/
def dot_fallback_result {T U R : Type} [AddCommMonoid R] [Mul R]
    (castT : T → R) (castU : U → R) (x : VView T) (y : VView U) : R :=
  sumRange 0 x.size (fun i => castT (x.entry i) * castU (y.entry i))

end kernels

/-! ### Cholesky decomposition (`Cholesky.hpp`)

`detail::_cholesky` is embedded below.  The public wrapper
`cholesky<ResultType>` only casts the element type up front and then calls
`detail::_cholesky`; at a fixed (floating) element type — the setting of
this embedding — it is `detail::_cholesky` itself.  `std::sqrt` is the
explicit `sqrt` parameter. -/

/-- One column `j` of the sequential diagonal-block factorisation of
`detail::_cholesky` (the body of the `for (j = jj; j < j_end; ++j)` loop):
accumulate `sum = Σ_{k<j} L[j][k]²`, throw when `diag = A[j][j] - sum ≤ 0`,
set `L[j][j] = sqrt(diag)`, then update rows `i` in `(j, j_end)` of column
`j` within the panel. -/
def cholPanelCol {α : Type} [LinearOrderedField α] (sqrt : α → α) (A : Mat α)
    (j_end : Nat) (L : Mat α) (j : Nat) : Except CppError (Mat α) :=
  let sum := sumRange 0 j (fun k => L.entry j k * L.entry j k)
  let diag_val := A.entry j j - sum
  if diag_val ≤ 0 then .error (.invalid_argument "Matrix is not positive definite!")
  else
    let L1 := L.set j j (sqrt diag_val)
    .ok (forRange (j + 1) j_end (fun L2 i =>
      let sum_i := sumRange 0 j (fun k => L2.entry i k * L2.entry j k)
      L2.set i j ((A.entry i j - sum_i) / L2.entry j j)) L1)

/-- One trailing row-block of `detail::_cholesky` (the body of the
`for (ii = j_end; ii < n; ii += BLOCK_SIZE)` loop): for every row `i` of the
block and every panel column `j`, set
`L[i][j] = (A[i][j] - Σ_{k<j} L[i][k]·L[j][k]) / L[j][j]`. -/
def cholTrailBlock {α : Type} [LinearOrderedField α] (A : Mat α)
    (jj j_end n : Nat) (L : Mat α) (ii : Nat) : Mat α :=
  let i_end := min (ii + BLOCK_SIZE) n
  forRange ii i_end (fun L1 i =>
    forRange jj j_end (fun L2 j =>
      let sum := sumRange 0 j (fun k => L2.entry i k * L2.entry j k)
      L2.set i j ((A.entry i j - sum) / L2.entry j j)) L1) L

/-- One block `[jj, min (jj+BLOCK_SIZE, n))` of `detail::_cholesky`: the
sequential panel phase (which may throw), then the trailing update. -/
def cholBlockStep {α : Type} [LinearOrderedField α] (sqrt : α → α) (A : Mat α)
    (L : Mat α) (jj : Nat) : Except CppError (Mat α) :=
  let j_end := min (jj + BLOCK_SIZE) A.rows
  match forRangeM jj j_end (cholPanelCol sqrt A j_end) L with
  | .error e => .error e
  | .ok L1 =>
    .ok (forStep j_end A.rows BLOCK_SIZE (cholTrailBlock A jj j_end A.rows) L1)

/-- Model of `maf::math::cholesky` / `detail::_cholesky`: reject
non-symmetric input up front, construct `Matrix<T> L(n, n)` (which itself
throws for `n = 0`), then run the blocked Cholesky-Crout factorisation over
column panels of width `BLOCK_SIZE`. -/
def cholesky {α : Type} [LinearOrderedField α] (sqrt : α → α) (A : Mat α) :
    Except CppError (Mat α) :=
  if A.is_symmetric = false then
    .error (.invalid_argument "Matrix must be symmetric to try Cholesky decomposition!")
  else
    match Mat.create α A.rows A.rows with
    | .error e => .error e
    | .ok L0 => forStepM 0 A.rows BLOCK_SIZE (cholBlockStep sqrt A) L0

/-! The Cholesky-Crout recurrence the loops implement, built column by
column.  `cholBuild sqrt A j` holds the final values of all columns `< j`
(and zero elsewhere); `cholL` and `cholDiag` are the limit values. -/

/-- Columns `0..j-1` of the Cholesky factor of `A`, by the Cholesky-Crout
recurrence of `detail::_cholesky`; entries in columns `≥ j` are 0. -/
def cholBuild {α : Type} [LinearOrderedField α] (sqrt : α → α) (A : Mat α) :
    Nat → Nat → Nat → α
  | 0 => fun _ _ => 0
  | j + 1 => fun r c =>
      if c = j then
        if r < j then 0
        else if r = j then
          sqrt (A.entry j j - ∑ k in Finset.range j,
            cholBuild sqrt A j j k * cholBuild sqrt A j j k)
        else
          (A.entry r j - ∑ k in Finset.range j,
            cholBuild sqrt A j r k * cholBuild sqrt A j j k) /
          sqrt (A.entry j j - ∑ k in Finset.range j,
            cholBuild sqrt A j j k * cholBuild sqrt A j j k)
      else cholBuild sqrt A j r c

/-- Entry `(r, c)` of the Cholesky factor computed by the recurrence. -/
def cholL {α : Type} [LinearOrderedField α] (sqrt : α → α) (A : Mat α)
    (r c : Nat) : α :=
  cholBuild sqrt A (c + 1) r c

/-- The pivot `diag = A[j][j] - Σ_{k<j} L[j][k]²` tested against 0 by
`detail::_cholesky` at column `j`. -/
def cholDiag {α : Type} [LinearOrderedField α] (sqrt : α → α) (A : Mat α)
    (j : Nat) : α :=
  A.entry j j - ∑ k in Finset.range j, cholL sqrt A j k * cholL sqrt A j k

/-! Loop invariants tying the blocked loops of `detail::_cholesky` to the
`cholL` recurrence.  `ColsDone c` describes the working matrix `L` between
panels (columns `< c` final, the rest still zero); `PanelDone` describes it
inside the sequential panel phase (panel columns final only for rows inside
the panel); `TrailDone` describes it inside the trailing update (panel
columns final for rows `< rdone`). -/

/-- Between panels: columns `< c` hold their final values for all rows `< n`
and every entry in columns `≥ c` is still zero. -/
def ColsDone {α : Type} [LinearOrderedField α] (sqrt : α → α) (A : Mat α)
    (n c : Nat) (L : Mat α) : Prop :=
  L.rows = n ∧ L.cols = n ∧
  (∀ r cc, r < n → cc < c → L.entry r cc = cholL sqrt A r cc) ∧
  (∀ r cc, c ≤ cc → L.entry r cc = 0)

/-- During the panel phase of the block starting at column `jj` with end
`j_end`: columns `< jj` final, panel columns `< c` final for rows `< j_end`
and still zero for rows `≥ j_end`, columns `≥ c` still zero. -/
def PanelDone {α : Type} [LinearOrderedField α] (sqrt : α → α) (A : Mat α)
    (n jj c j_end : Nat) (L : Mat α) : Prop :=
  L.rows = n ∧ L.cols = n ∧
  (∀ r cc, r < n → cc < jj → L.entry r cc = cholL sqrt A r cc) ∧
  (∀ r cc, jj ≤ cc → cc < c → r < j_end → L.entry r cc = cholL sqrt A r cc) ∧
  (∀ r cc, jj ≤ cc → cc < c → j_end ≤ r → L.entry r cc = 0) ∧
  (∀ r cc, c ≤ cc → L.entry r cc = 0)

/-- During the trailing update of the block `[jj, j_end)`: columns `< jj`
final, panel columns final for rows `< rdone` and still zero for rows
`≥ rdone`, columns `≥ j_end` still zero. -/
def TrailDone {α : Type} [LinearOrderedField α] (sqrt : α → α) (A : Mat α)
    (n jj j_end rdone : Nat) (L : Mat α) : Prop :=
  L.rows = n ∧ L.cols = n ∧
  (∀ r cc, r < n → cc < jj → L.entry r cc = cholL sqrt A r cc) ∧
  (∀ r cc, jj ≤ cc → cc < j_end → r < rdone → L.entry r cc = cholL sqrt A r cc) ∧
  (∀ r cc, jj ≤ cc → cc < j_end → rdone ≤ r → L.entry r cc = 0) ∧
  (∀ r cc, j_end ≤ cc → L.entry r cc = 0)

/-- Mid-state of the inner row loop of `cholPanelCol` at column `j`: the
surrounding `PanelDone` clauses, the diagonal already written, and rows
`(j, i)` of column `j` already updated. -/
def CholColMid {α : Type} [LinearOrderedField α] (sqrt : α → α) (A : Mat α)
    (n jj j_end j : Nat) (L2 : Mat α) (i : Nat) : Prop :=
  L2.rows = n ∧ L2.cols = n ∧
  (∀ r cc, r < n → cc < jj → L2.entry r cc = cholL sqrt A r cc) ∧
  (∀ r cc, jj ≤ cc → cc < j → r < j_end → L2.entry r cc = cholL sqrt A r cc) ∧
  (∀ r cc, jj ≤ cc → cc < j → j_end ≤ r → L2.entry r cc = 0) ∧
  (∀ r cc, j < cc → L2.entry r cc = 0) ∧
  (∀ r, r < j → L2.entry r j = 0) ∧
  (L2.entry j j = cholL sqrt A j j) ∧
  (∀ r, j < r → r < i → L2.entry r j = cholL sqrt A r j) ∧
  (∀ r, j < r → i ≤ r → L2.entry r j = 0)

/-- Mid-state of the per-row column loop of the trailing update for row `i`:
panel columns `< j` of row `i` already updated. -/
def CholTrailRowMid {α : Type} [LinearOrderedField α] (sqrt : α → α)
    (A : Mat α) (n jj j_end i : Nat) (L2 : Mat α) (j : Nat) : Prop :=
  L2.rows = n ∧ L2.cols = n ∧
  (∀ r cc, r < n → cc < jj → L2.entry r cc = cholL sqrt A r cc) ∧
  (∀ r cc, jj ≤ cc → cc < j_end → r < i → L2.entry r cc = cholL sqrt A r cc) ∧
  (∀ cc, jj ≤ cc → cc < j → L2.entry i cc = cholL sqrt A i cc) ∧
  (∀ cc, j ≤ cc → cc < j_end → L2.entry i cc = 0) ∧
  (∀ r cc, jj ≤ cc → cc < j_end → i < r → L2.entry r cc = 0) ∧
  (∀ r cc, j_end ≤ cc → L2.entry r cc = 0)

/-! ### PLU decomposition (`PLU.hpp`)

`detail::_plu` is embedded below.  The public wrapper `plu<ResultType>`
copies (or casts) the input into the working matrix `_U` and calls
`detail::_plu`; at a fixed floating element type it adds nothing beyond the
copy, which value semantics make implicit here. -/

/-- The loop-carried state of `detail::_plu`: the permutation vector `P`,
the multiplier matrix `L` and the working matrix `_U` (mutated in place). -/
structure PluSt (α : Type) where
  P : List Nat
  L : Mat α
  U : Mat α

/-- Swap of two entries of the permutation vector
(`std::swap(P[i], P[pivot_row])`). -/
def listSwap (l : List Nat) (i p : Nat) : List Nat :=
  (l.set i (l.getD p 0)).set p (l.getD i 0)

/-- Full-row swap of rows `i` and `p`
(`std::ranges::swap_ranges(row_i, row_p)` over whole row spans). -/
def Mat.rowSwap {α : Type} (M : Mat α) (i p : Nat) : Mat α :=
  ⟨M.rows, M.cols, fun r c =>
    if r = i then M.entry p c else if r = p then M.entry i c else M.entry r c⟩

/-- Swap of the first `len` entries of rows `i` and `p`
(`swap_ranges` over `row_span(·).subspan(0, len)`); with `len = 0` this is
the no-op the source guards with `if (i > 0)`. -/
def Mat.rowSwapPrefix {α : Type} (M : Mat α) (i p len : Nat) : Mat α :=
  ⟨M.rows, M.cols, fun r c =>
    if c < len then
      if r = i then M.entry p c else if r = p then M.entry i c else M.entry r c
    else M.entry r c⟩

/-- The pivot search of `detail::_plu` at column `i`: scan rows `i..n-1` of
column `i` of the working matrix for the maximum magnitude, keeping the
first row attaining it; returns `(max_val, pivot_row)`. -/
def findPivot {α : Type} [LinearOrderedField α] (U : Mat α) (n i : Nat) : α × Nat :=
  forRange (i + 1) n (fun mp j =>
    let curr_val := |U.entry j i|
    if mp.1 < curr_val then (curr_val, j) else mp) (|U.entry i i|, i)

/-- The row swaps of `detail::_plu` once a pivot row `p ≠ i` is selected:
swap `P[i]` with `P[p]`, the whole rows `i` and `p` of the working matrix,
and the already-computed first `i` multiplier columns of rows `i` and `p`
of `L`. -/
def pluApplySwaps {α : Type} (st : PluSt α) (i p : Nat) : PluSt α :=
  ⟨listSwap st.P i p, st.L.rowSwapPrefix i p i, st.U.rowSwap i p⟩

/-- One column of the panel factorisation of `detail::_plu` (the body of
`for (i = ib; i < block_end && i < n-1; ++i)`): pivot search, near-zero
singularity check, conditional swaps, then elimination of the rows below
`i` restricted to the panel columns `(i, block_end)`. -/
def pluPanelCol {α : Type} [LinearOrderedField α] (n block_end : Nat)
    (st : PluSt α) (i : Nat) : Except CppError (PluSt α) :=
  let mp := findPivot st.U n i
  if is_close mp.1 0 EPS9 then
    .error (.runtime_error "Matrix is singular; pivot is near zero.")
  else
    let st1 := if mp.2 ≠ i then pluApplySwaps st i mp.2 else st
    let pivot := st1.U.entry i i
    let inv_pivot := 1 / pivot
    .ok (forRange (i + 1) n (fun st2 j =>
      let mult := st2.U.entry j i * inv_pivot
      ⟨st2.P, st2.L.set j i mult,
        forRange (i + 1) block_end (fun U2 k =>
          U2.set j k (U2.entry j k - mult * U2.entry i k)) st2.U⟩) st1)

/-- The triangular solve of `detail::_plu` for `U_12`
(`L_11 * U_12 = A_12`): per trailing column `j`, rows `ib..block_end` of the
working matrix are updated top-down using the panel multipliers. -/
def pluTriSolve {α : Type} [LinearOrderedField α] (L : Mat α)
    (ib block_end n : Nat) (U : Mat α) : Mat α :=
  forRange block_end n (fun U1 j =>
    forRange ib block_end (fun U2 i =>
      U2.set i j (U2.entry i j -
        sumRange ib i (fun k => L.entry i k * U2.entry k j))) U1) U

/-- The trailing-submatrix update of `detail::_plu`: every trailing row is
updated against every pivot row of the panel, skipping multipliers within
`1e-9` of zero. -/
def pluTrailUpdate {α : Type} [LinearOrderedField α] (L : Mat α)
    (ib block_end n : Nat) (U : Mat α) : Mat α :=
  forRange block_end n (fun U1 i =>
    forRange ib block_end (fun U2 k =>
      let mult := L.entry i k
      if is_close mult 0 EPS9 then U2
      else forRange 0 (n - block_end) (fun U3 j =>
        U3.set i (block_end + j)
          (U3.entry i (block_end + j) - mult * U3.entry k (block_end + j))) U2) U1) U

/-- One block of `detail::_plu`: panel factorisation (which may throw), then
— when a trailing submatrix remains — the triangular solve and the trailing
update. -/
def pluBlockStep {α : Type} [LinearOrderedField α] (n : Nat) (st : PluSt α)
    (ib : Nat) : Except CppError (PluSt α) :=
  let block_end := min (ib + BLOCK_SIZE) n
  match forRangeM ib (min block_end (n - 1)) (pluPanelCol n block_end) st with
  | .error e => .error e
  | .ok st1 =>
    .ok (if block_end < n then
      ⟨st1.P, st1.L,
        pluTrailUpdate st1.L ib block_end n (pluTriSolve st1.L ib block_end n st1.U)⟩
    else st1)

/-- The extraction of `U` at the end of `detail::_plu`: an `n × n` matrix,
zero below the diagonal (value-initialised storage), holding row segment
`[i, n)` of the fully-eliminated working matrix in row `i`. -/
def extractU {α : Type} [LinearOrderedField α] (n : Nat) (U : Mat α) : Mat α :=
  ⟨n, n, fun i j => if i ≤ j then U.entry i j else 0⟩

/-- Model of `maf::math::plu` / `detail::_plu`: reject non-square input,
return empty results for a 0×0 input, otherwise run the blocked
right-looking factorisation with partial pivoting, check the last diagonal
entry for singularity, and extract `(P, L, U)`. -/
def plu {α : Type} [LinearOrderedField α] (A : Mat α) :
    Except CppError (List Nat × Mat α × Mat α) :=
  if A.is_square = false then
    .error (.invalid_argument "Matrix must be square for PLU decomposition!")
  else
    let n := A.rows
    if n = 0 then .ok ([], Mat.empty α, Mat.empty α)
    else
      match forStepM 0 n BLOCK_SIZE (pluBlockStep n) ⟨List.range n, identity_matrix n, A⟩ with
      | .error e => .error e
      | .ok st =>
        if is_close (st.U.entry (n - 1) (n - 1)) 0 EPS9 then
          .error (.runtime_error "Matrix is singular; pivot is near zero.")
        else .ok (st.P, st.L, extractU n st.U)

/-- The structural invariant of `detail::_plu`'s loop state: `P` is a
permutation of `0..n-1` of length `n`, `L` is `n × n` with unit diagonal and
zero strict upper triangle, `U` is `n × n`. -/
def PluInv {α : Type} [Zero α] [One α] (n : Nat) (st : PluSt α) : Prop :=
  st.P.length = n ∧ st.P.Perm (List.range n) ∧
  st.L.rows = n ∧ st.L.cols = n ∧
  (∀ i, st.L.entry i i = 1) ∧ (∀ i j, i < j → st.L.entry i j = 0) ∧
  st.U.rows = n ∧ st.U.cols = n

/-! ### QR decomposition (`QR.hpp`)

The manual Householder path of `QR_decompostion` (the name carries the
source's spelling) is embedded; the Accelerate/LAPACK branch is Apple-only
conditional compilation with the same external contract. -/

/-- Result struct of `QR_decompostion`. -/
structure QRResult (α : Type) where
  Q : Mat α
  R : Mat α

/-- Model of `detail::householder_column` on the full working-matrix view:
bounds-check `j`, accumulate `sigma = Σ_{i>j} A[i][j]²`, return `tau = 0`
with the matrix untouched when `sigma == 0`, otherwise store the compact
reflector in column `j` (tail scaled by `1/(alpha-beta)`, `beta` on the
diagonal) and return `tau = 2/vᵀv` with the updated matrix. -/
def householder_column {α : Type} [LinearOrderedField α] (sqrt : α → α)
    (A : Mat α) (j : Nat) : Except CppError (α × Mat α) :=
  let m := A.rows
  if j ≥ m then .error (.out_of_range "Householder column index out of range!")
  else
    let sigma := sumRange (j + 1) m (fun i => A.entry i j * A.entry i j)
    if sigma = 0 then .ok (0, A)
    else
      let alpha := A.entry j j
      let normx := sqrt (alpha * alpha + sigma)
      let beta := if alpha ≤ 0 then normx else -normx
      let u0_inv := 1 / (alpha - beta)
      let A1 := forRange (j + 1) m (fun A2 i => A2.set i j (A2.entry i j * u0_inv)) A
      let A2 := A1.set j j beta
      let vTv := 1 + sumRange (j + 1) m (fun i => A2.entry i j * A2.entry i j)
      .ok (2 / vTv, A2)

/-- Model of `detail::load_reflector`: the full reflector vector of column
`j`, `v[0] = 1` and `v[i] = A_work[i+j][j]` for `0 < i < m-j`. -/
def load_reflector {α : Type} [LinearOrderedField α] (A_work : Mat α)
    (j : Nat) : Vec α :=
  ⟨A_work.rows - j, Orient.C, fun i => if i = 0 then 1 else A_work.entry (i + j) j⟩

/-- One column iteration of the manual QR factorisation loop: compute the
reflector (writing `tau[j]`), skip (`continue`) when `tau[j] == 0`, and
otherwise apply the reflector to the trailing block right of column `j`
through one GEMV and one GER on the view
`A_work.view(j, j+1, m-j, n-(j+1))`. -/
def qrStep {α : Type} [LinearOrderedField α] (sqrt : α → α) (m n : Nat)
    (st : Mat α × List α) (j : Nat) : Except CppError (Mat α × List α) :=
  match householder_column sqrt st.1 j with
  | .error e => .error e
  | .ok (tj, A1) =>
    let tau1 := st.2.set j tj
    if tj = 0 then .ok (A1, tau1)
    else
      let v := load_reflector A1 j
      if j + 1 < n then
        let w := kernels.gemv id id kernels.OP.Trans
          (A1.view j (j + 1) (m - j) (n - (j + 1))) ⟨m - j, v.entry⟩
        .ok (kernels.ger A1 j (j + 1) (m - j) (n - (j + 1)) v.entry w.entry (-tj), tau1)
      else .ok (A1, tau1)

/-- One iteration of the explicit-Q formation loop (reflectors applied in
reverse order to the identity), skipping stored zero taus. -/
def qrQStep {α : Type} [LinearOrderedField α] (m k : Nat) (A_work : Mat α)
    (tau : List α) (Q : Mat α) (t : Nat) : Mat α :=
  let j := (k - 1) - t
  if tau.getD j 0 = 0 then Q
  else
    let v := load_reflector A_work j
    let w := kernels.gemv id id kernels.OP.Trans (Q.view j j (m - j) (m - j))
      ⟨m - j, v.entry⟩
    kernels.ger Q j j (m - j) (m - j) v.entry w.entry (-(tau.getD j 0))

/-- Model of `maf::math::QR_decompostion` (manual Householder path): reject
empty input, run the reflector loop over columns `0..k-1` (`k = min(m,n)`),
extract `R` from the upper triangle (full `m×n` or thin `k×n`), reconstruct
`Q` from the stored reflectors in reverse order (full `m×m` or thin `m×k`). -/
def QR_decompostion {α : Type} [LinearOrderedField α] (sqrt : α → α)
    (A : Mat α) (full_Q full_R : Bool) : Except CppError (QRResult α) :=
  let m := A.rows
  let n := A.cols
  if m = 0 || n = 0 then
    .error (.invalid_argument "Cannot perform QR decomposition on empty matrix!")
  else
    let k := min m n
    match forRangeM 0 k (qrStep sqrt m n) (A, List.replicate k 0) with
    | .error e => .error e
    | .ok wt =>
      let R : Mat α := ⟨if full_R then m else k, n,
        fun i j => if i ≤ j then wt.1.entry i j else 0⟩
      let Q_full := forRange 0 k (qrQStep m k wt.1 wt.2) (identity_matrix m)
      let Q := if full_Q then Q_full else ⟨m, k, fun i j => Q_full.entry i j⟩
      .ok ⟨Q, R⟩

/-! ### Mathematical matrix product (specification side, for L·Lᵗ = A) -/

/-- Model of `Matrix<T>::transposed()`. -/
def Mat.transposed {α : Type} (A : Mat α) : Mat α :=
  ⟨A.cols, A.rows, fun i j => A.entry j i⟩

/-- The mathematical matrix product, used to state the round-trip
reconstruction property. -/
def matMul {α : Type} [AddCommMonoid α] [Mul α] (A B : Mat α) : Mat α :=
  ⟨A.rows, B.cols, fun i j => ∑ k in Finset.range A.cols, A.entry i k * B.entry k j⟩

/-- The 1-step Schur complement of `A` with respect to its `(0,0)` pivot. -/
def schur {α : Type} [LinearOrderedField α] (A : Mat α) : Mat α :=
  ⟨A.rows - 1, A.cols - 1, fun i j =>
    A.entry (i + 1) (j + 1) - A.entry (i + 1) 0 * A.entry 0 (j + 1) / A.entry 0 0⟩

/-! ### Concrete inputs used by the claim witnesses and counterexamples -/

/-- A 1×1 rational matrix whose single pivot is non-positive (and, for PLU,
a singular square input). -/
def MnotPD : Mat ℚ := Mat.ofLists 1 1 [[0]]

/-- A non-symmetric 2×2 rational matrix. -/
def Mnonsym : Mat ℚ := Mat.ofLists 2 2 [[1, 2], [3, 4]]

/-- A non-square 2×3 rational matrix. -/
def Mnonsq : Mat ℚ := Mat.ofLists 2 3 [[1, 2, 3], [4, 5, 6]]

/-- A symmetric positive-definite 2×2 rational matrix on which `plu`
succeeds. -/
def Mpd2 : Mat ℚ := Mat.ofLists 2 2 [[2, 1], [1, 2]]

/-- The triple returned by `plu` on `Mpd2`. -/
def pluW : List Nat × Mat ℚ × Mat ℚ :=
  match plu Mpd2 with
  | .ok r => r
  | .error _ => ([], Mat.empty ℚ, Mat.empty ℚ)

/-- A concrete PLU loop state whose column 0 needs a pivot swap. -/
def pivotSt : PluSt ℚ := ⟨[0, 1], identity_matrix 2, Mat.ofLists 2 2 [[0, 1], [2, 0]]⟩

/-- The 2×2 rational identity, used as a QR working matrix whose column 0
has zero sub-diagonal sum of squares. -/
def W2q : Mat ℚ := Mat.ofLists 2 2 [[1, 0], [0, 1]]

/-- A concrete 2×2 rational matrix view. -/
def Aview : MView ℚ := (Mat.ofLists 2 2 [[1, 2], [3, 4]]).view 0 0 2 2

/-- A concrete rational vector view of length 2. -/
def xview : VView ℚ := ⟨2, fun i => [5, 6].getD i 0⟩

/-- The concrete vector view `{1, 2, 3}`. -/
def x3q : VView ℚ := ⟨3, fun i => [1, 2, 3].getD i 0⟩

/-- The concrete vector view `{4, 5, 6}`. -/
def y3q : VView ℚ := ⟨3, fun i => [4, 5, 6].getD i 0⟩

/-! ### Theorems -/

@[simp] theorem Mat.rows_set {α : Type} (A : Mat α) (i j : Nat) (v : α) :
    (A.set i j v).rows = A.rows := rfl

@[simp] theorem Mat.cols_set {α : Type} (A : Mat α) (i j : Nat) (v : α) :
    (A.set i j v).cols = A.cols := rfl

@[simp] theorem Mat.entry_set_same {α : Type} (A : Mat α) (i j : Nat) (v : α) :
    (A.set i j v).entry i j = v := by simp [Mat.set]

theorem Mat.entry_set_ne {α : Type} (A : Mat α) (i j r c : Nat) (v : α)
    (h : ¬(r = i ∧ c = j)) : (A.set i j v).entry r c = A.entry r c := by
  simp [Mat.set, h]

/-- The result of `forStepF` does not depend on the fuel, once the fuel
covers the remaining range. -/
theorem forStepF_congr {σ : Type} (fuel1 fuel2 lo hi step : Nat)
    (f : σ → Nat → σ) (s : σ) (h1 : hi - lo ≤ fuel1) (h2 : hi - lo ≤ fuel2) :
    forStepF fuel1 lo hi step f s = forStepF fuel2 lo hi step f s := by
  induction fuel1 generalizing fuel2 lo s with
  | zero =>
    cases fuel2 with
    | zero => rfl
    | succ m =>
      simp only [forStepF]
      rw [if_neg (by omega)]
  | succ k ih =>
    cases fuel2 with
    | zero =>
      simp only [forStepF]
      rw [if_neg (by omega)]
    | succ m =>
      simp only [forStepF]
      by_cases hg : lo < hi ∧ 0 < step
      · rw [if_pos hg, if_pos hg]
        exact ih m (lo + step) (f s lo) (by omega) (by omega)
      · rw [if_neg hg, if_neg hg]

/-- The result of `forStepMF` does not depend on the fuel, once the fuel
covers the remaining range. -/
theorem forStepMF_congr {σ ε : Type} (fuel1 fuel2 lo hi step : Nat)
    (f : σ → Nat → Except ε σ) (s : σ) (h1 : hi - lo ≤ fuel1)
    (h2 : hi - lo ≤ fuel2) :
    forStepMF fuel1 lo hi step f s = forStepMF fuel2 lo hi step f s := by
  induction fuel1 generalizing fuel2 lo s with
  | zero =>
    cases fuel2 with
    | zero => rfl
    | succ m =>
      simp only [forStepMF]
      rw [if_neg (by omega)]
  | succ k ih =>
    cases fuel2 with
    | zero =>
      simp only [forStepMF]
      rw [if_neg (by omega)]
    | succ m =>
      simp only [forStepMF]
      by_cases hg : lo < hi ∧ 0 < step
      · rw [if_pos hg, if_pos hg]
        cases f s lo with
        | error e => rfl
        | ok s' => exact ih m (lo + step) s' (by omega) (by omega)
      · rw [if_neg hg, if_neg hg]

theorem forRange_stop {σ : Type} (lo hi : Nat) (f : σ → Nat → σ) (s : σ)
    (h : ¬ lo < hi) : forRange lo hi f s = s := by
  show forRangeF (hi - lo) lo f s = s
  rw [Nat.sub_eq_zero_of_le (by omega)]
  rfl

theorem forRange_step {σ : Type} (lo hi : Nat) (f : σ → Nat → σ) (s : σ)
    (h : lo < hi) : forRange lo hi f s = forRange (lo + 1) hi f (f s lo) := by
  show forRangeF (hi - lo) lo f s = forRangeF (hi - (lo + 1)) (lo + 1) f (f s lo)
  have hk : hi - lo = (hi - (lo + 1)) + 1 := by omega
  rw [hk]
  rfl

theorem forRangeM_stop {σ ε : Type} (lo hi : Nat) (f : σ → Nat → Except ε σ) (s : σ)
    (h : ¬ lo < hi) : forRangeM lo hi f s = .ok s := by
  show forRangeMF (hi - lo) lo f s = .ok s
  rw [Nat.sub_eq_zero_of_le (by omega)]
  rfl

theorem forRangeM_step {σ ε : Type} (lo hi : Nat) (f : σ → Nat → Except ε σ) (s : σ)
    (h : lo < hi) :
    forRangeM lo hi f s =
      match f s lo with
      | .error e => .error e
      | .ok s' => forRangeM (lo + 1) hi f s' := by
  show forRangeMF (hi - lo) lo f s = _
  have hk : hi - lo = (hi - (lo + 1)) + 1 := by omega
  rw [hk]
  simp only [forRangeMF]
  cases f s lo <;> rfl

theorem forStep_stop {σ : Type} (lo hi step : Nat) (f : σ → Nat → σ) (s : σ)
    (h : ¬(lo < hi ∧ 0 < step)) : forStep lo hi step f s = s := by
  show forStepF (hi - lo) lo hi step f s = s
  cases hk : hi - lo with
  | zero => rfl
  | succ k =>
    simp only [forStepF]
    rw [if_neg h]

theorem forStep_step {σ : Type} (lo hi step : Nat) (f : σ → Nat → σ) (s : σ)
    (h : lo < hi ∧ 0 < step) :
    forStep lo hi step f s = forStep (lo + step) hi step f (f s lo) := by
  show forStepF (hi - lo) lo hi step f s =
    forStepF (hi - (lo + step)) (lo + step) hi step f (f s lo)
  have hk : hi - lo = (hi - lo - 1) + 1 := by omega
  rw [hk]
  simp only [forStepF]
  rw [if_pos h]
  exact forStepF_congr _ _ _ _ _ _ _ (by omega) (by omega)

theorem forStepM_stop {σ ε : Type} (lo hi step : Nat) (f : σ → Nat → Except ε σ)
    (s : σ) (h : ¬(lo < hi ∧ 0 < step)) : forStepM lo hi step f s = .ok s := by
  show forStepMF (hi - lo) lo hi step f s = .ok s
  cases hk : hi - lo with
  | zero => rfl
  | succ k =>
    simp only [forStepMF]
    rw [if_neg h]

theorem forStepM_step {σ ε : Type} (lo hi step : Nat) (f : σ → Nat → Except ε σ)
    (s : σ) (h : lo < hi ∧ 0 < step) :
    forStepM lo hi step f s =
      match f s lo with
      | .error e => .error e
      | .ok s' => forStepM (lo + step) hi step f s' := by
  show forStepMF (hi - lo) lo hi step f s = _
  have hk : hi - lo = (hi - lo - 1) + 1 := by omega
  rw [hk]
  simp only [forStepMF]
  rw [if_pos h]
  cases f s lo with
  | error e => rfl
  | ok s' =>
    show forStepMF (hi - lo - 1) (lo + step) hi step f s' =
      forStepMF (hi - (lo + step)) (lo + step) hi step f s'
    exact forStepMF_congr _ _ _ _ _ _ _ (by omega) (by omega)

/-- Invariant rule for `forRange`. -/
theorem forRange_inv {σ : Type} (P : σ → Nat → Prop) (lo hi : Nat)
    (f : σ → Nat → σ) (s : σ) (hlo : lo ≤ hi) (hinit : P s lo)
    (hstep : ∀ s j, lo ≤ j → j < hi → P s j → P (f s j) (j + 1)) :
    P (forRange lo hi f s) hi := by
  by_cases h : lo < hi
  · rw [forRange_step lo hi f s h]
    exact forRange_inv P (lo + 1) hi f (f s lo) h
      (hstep s lo le_rfl h hinit)
      (fun s' j hj hj' hP => hstep s' j (by omega) hj' hP)
  · have : lo = hi := by omega
    rw [forRange_stop lo hi f s h]
    exact this ▸ hinit
termination_by hi - lo
decreasing_by omega

/-- Success-propagation rule for `forRangeM`: if the whole loop returned
`ok`, an invariant preserved by every successful body iteration holds of
the result. -/
theorem forRangeM_ok_inv {σ ε : Type} (P : σ → Nat → Prop) (lo hi : Nat)
    (f : σ → Nat → Except ε σ) (s s' : σ) (hlo : lo ≤ hi) (hinit : P s lo)
    (hstep : ∀ t j t', lo ≤ j → j < hi → P t j → f t j = .ok t' → P t' (j + 1))
    (hrun : forRangeM lo hi f s = .ok s') : P s' hi := by
  by_cases h : lo < hi
  · rw [forRangeM_step lo hi f s h] at hrun
    cases hf : f s lo with
    | error e => rw [hf] at hrun; exact absurd hrun (by simp)
    | ok t =>
      rw [hf] at hrun
      exact forRangeM_ok_inv P (lo + 1) hi f t s' h
        (hstep s lo t le_rfl h hinit hf)
        (fun t₁ j t₂ hj hj' hP hOk => hstep t₁ j t₂ (by omega) hj' hP hOk) hrun
  · have heq : lo = hi := by omega
    rw [forRangeM_stop lo hi f s h] at hrun
    cases hrun; exact heq ▸ hinit
termination_by hi - lo
decreasing_by omega

/-- Success rule for `forRangeM`: if every iteration succeeds and preserves
the invariant, the loop succeeds with the invariant at `hi`. -/
theorem forRangeM_inv {σ ε : Type} (P : σ → Nat → Prop) (lo hi : Nat)
    (f : σ → Nat → Except ε σ) (s : σ) (hlo : lo ≤ hi) (hinit : P s lo)
    (hstep : ∀ t j, lo ≤ j → j < hi → P t j → ∃ t', f t j = .ok t' ∧ P t' (j + 1)) :
    ∃ s', forRangeM lo hi f s = .ok s' ∧ P s' hi := by
  by_cases h : lo < hi
  · obtain ⟨t, hft, hPt⟩ := hstep s lo le_rfl h hinit
    rw [forRangeM_step lo hi f s h, hft]
    exact forRangeM_inv P (lo + 1) hi f t h hPt
      (fun t₁ j hj hj' hP => hstep t₁ j (by omega) hj' hP)
  · have heq : lo = hi := by omega
    rw [forRangeM_stop lo hi f s h]
    exact ⟨s, rfl, heq ▸ hinit⟩
termination_by hi - lo
decreasing_by omega

/-- Error rule for `forRangeM`: iterations up to `j₀` succeed preserving the
invariant, and the body fails at `j₀`; then the loop fails the same way. -/
theorem forRangeM_err {σ ε : Type} (P : σ → Nat → Prop) (lo hi j₀ : Nat)
    (e : ε) (f : σ → Nat → Except ε σ) (s : σ) (hlo : lo ≤ j₀) (hj₀ : j₀ < hi)
    (hinit : P s lo)
    (hstep : ∀ t j, lo ≤ j → j < j₀ → P t j → ∃ t', f t j = .ok t' ∧ P t' (j + 1))
    (hfail : ∀ t, P t j₀ → f t j₀ = .error e) :
    forRangeM lo hi f s = .error e := by
  by_cases h : lo < j₀
  · obtain ⟨t, hft, hPt⟩ := hstep s lo le_rfl h hinit
    rw [forRangeM_step lo hi f s (by omega), hft]
    exact forRangeM_err P (lo + 1) hi j₀ e f t h hj₀ hPt
      (fun t₁ j hj hj' hP => hstep t₁ j (by omega) hj' hP) hfail
  · have heq : lo = j₀ := by omega
    subst heq
    rw [forRangeM_step lo hi f s (by omega), hfail s hinit]
termination_by j₀ - lo
decreasing_by omega

/-- Success rule for `forStepM` (stride loop): the invariant is preserved by
the body at every index, so it holds at the final index, which is `≥ hi`. -/
theorem forStepM_inv {σ ε : Type} (P : σ → Nat → Prop) (lo hi step : Nat)
    (f : σ → Nat → Except ε σ) (s : σ) (hstep0 : 0 < step) (hinit : P s lo)
    (hstep : ∀ t j, lo ≤ j → j < hi → P t j → ∃ t', f t j = .ok t' ∧ P t' (j + step)) :
    ∃ s' j', forStepM lo hi step f s = .ok s' ∧ hi ≤ j' ∧ P s' j' := by
  by_cases h : lo < hi
  · obtain ⟨t, hft, hPt⟩ := hstep s lo le_rfl h hinit
    rw [forStepM_step lo hi step f s ⟨h, hstep0⟩, hft]
    exact forStepM_inv P (lo + step) hi step f t hstep0 hPt
      (fun t₁ j hj hj' hP => hstep t₁ j (by omega) hj' hP)
  · rw [forStepM_stop lo hi step f s (by omega)]
    exact ⟨s, lo, rfl, by omega, hinit⟩
termination_by hi - lo
decreasing_by omega

/-- Invariant rule for the pure strided loop `forStep`. -/
theorem forStep_inv {σ : Type} (P : σ → Nat → Prop) (lo hi step : Nat)
    (f : σ → Nat → σ) (s : σ) (hstep0 : 0 < step) (hinit : P s lo)
    (hstep : ∀ t j, lo ≤ j → j < hi → P t j → P (f t j) (j + step)) :
    ∃ j', hi ≤ j' ∧ P (forStep lo hi step f s) j' := by
  by_cases h : lo < hi
  · rw [forStep_step lo hi step f s ⟨h, hstep0⟩]
    exact forStep_inv P (lo + step) hi step f (f s lo) hstep0
      (hstep s lo le_rfl h hinit)
      (fun t j hj hj' hP => hstep t j (by omega) hj' hP)
  · rw [forStep_stop lo hi step f s (by omega)]
    exact ⟨lo, by omega, hinit⟩
termination_by hi - lo
decreasing_by omega

/-- Error rule for `forStepM`: the body succeeds (preserving `P`) at the
first `m` visited indices `lo, lo+step, …` and fails at index `lo + m·step`;
the loop then fails the same way. -/
theorem forStepM_err {σ ε : Type} (P : σ → Nat → Prop) (lo hi step m : Nat)
    (e : ε) (f : σ → Nat → Except ε σ) (s : σ) (hstep0 : 0 < step)
    (hj₀ : lo + m * step < hi) (hinit : P s lo)
    (hstep : ∀ t m', m' < m → P t (lo + m' * step) →
      ∃ t', f t (lo + m' * step) = .ok t' ∧ P t' (lo + m' * step + step))
    (hfail : ∀ t, P t (lo + m * step) → f t (lo + m * step) = .error e) :
    forStepM lo hi step f s = .error e := by
  cases m with
  | zero =>
    rw [forStepM_step lo hi step f s ⟨by omega, hstep0⟩]
    have := hfail s (by simpa using hinit)
    simp only [Nat.zero_mul, Nat.add_zero] at this
    rw [this]
  | succ m' =>
    obtain ⟨t, hft, hPt⟩ := hstep s 0 (by omega) (by simpa using hinit)
    simp only [Nat.zero_mul, Nat.add_zero] at hft hPt
    rw [forStepM_step lo hi step f s ⟨by omega, hstep0⟩, hft]
    have harith : lo + step + m' * step = lo + (m' + 1) * step := by ring
    refine forStepM_err P (lo + step) hi step m' e f t hstep0 (by omega) hPt
      (fun t₁ mm hmm hP => ?_) (fun t₁ hP => by rw [harith] at hP ⊢; exact hfail t₁ hP)
    have harith2 : lo + step + mm * step = lo + (mm + 1) * step := by ring
    rw [harith2] at hP ⊢
    exact hstep t₁ (mm + 1) (by omega) hP

theorem is_close_iff {α : Type} [LinearOrderedField α] (v1 v2 epsilon : α) :
    is_close v1 v2 epsilon = true ↔ |v1 - v2| < epsilon := by
  simp [is_close]

theorem forRange_add_eq {α : Type} [AddCommMonoid α] (lo hi : Nat) (f : Nat → α)
    (s : α) : forRange lo hi (fun t k => t + f k) s = s + ∑ k in Finset.Ico lo hi, f k := by
  by_cases h : lo < hi
  · rw [forRange_step _ _ _ _ h, forRange_add_eq (lo + 1) hi f (s + f lo),
      Finset.sum_eq_sum_Ico_succ_bot h, add_assoc]
  · rw [forRange_stop _ _ _ _ h]
    have : Finset.Ico lo hi = ∅ := by
      apply Finset.Ico_eq_empty; omega
    simp [this]
termination_by hi - lo
decreasing_by omega

theorem sumRange_eq {α : Type} [AddCommMonoid α] (lo hi : Nat) (f : Nat → α) :
    sumRange lo hi f = ∑ k in Finset.Ico lo hi, f k := by
  rw [sumRange, forRange_add_eq]; simp

theorem sumRange_zero_eq {α : Type} [AddCommMonoid α] (hi : Nat) (f : Nat → α) :
    sumRange 0 hi f = ∑ k in Finset.range hi, f k := by
  rw [sumRange_eq, Finset.range_eq_Ico]

theorem sumRange_congr {α : Type} [AddCommMonoid α] (lo hi : Nat) (f g : Nat → α)
    (h : ∀ k, lo ≤ k → k < hi → f k = g k) : sumRange lo hi f = sumRange lo hi g := by
  rw [sumRange_eq, sumRange_eq]
  exact Finset.sum_congr rfl (fun k hk => by
    rw [Finset.mem_Ico] at hk; exact h k hk.1 hk.2)

theorem cholBuild_succ_ne {α : Type} [LinearOrderedField α] (sqrt : α → α)
    (A : Mat α) (j r c : Nat) (h : c ≠ j) :
    cholBuild sqrt A (j + 1) r c = cholBuild sqrt A j r c := by
  simp [cholBuild, h]

theorem cholBuild_stable {α : Type} [LinearOrderedField α] (sqrt : α → α)
    (A : Mat α) (j j' r c : Nat) (hc : c < j) (hj : j ≤ j') :
    cholBuild sqrt A j' r c = cholBuild sqrt A j r c := by
  induction j' with
  | zero => omega
  | succ m ih =>
    by_cases h : j = m + 1
    · rw [h]
    · rw [cholBuild_succ_ne sqrt A m r c (by omega)]
      exact ih (by omega)

theorem cholBuild_eq_cholL {α : Type} [LinearOrderedField α] (sqrt : α → α)
    (A : Mat α) (j r c : Nat) (hc : c < j) :
    cholBuild sqrt A j r c = cholL sqrt A r c :=
  cholBuild_stable sqrt A (c + 1) j r c (by omega) (by omega)

theorem cholL_above {α : Type} [LinearOrderedField α] (sqrt : α → α)
    (A : Mat α) (r c : Nat) (h : r < c) : cholL sqrt A r c = 0 := by
  simp [cholL, cholBuild, h]

theorem cholBuild_sum_eq {α : Type} [LinearOrderedField α] (sqrt : α → α)
    (A : Mat α) (c r' : Nat) :
    (∑ k in Finset.range c, cholBuild sqrt A c r' k * cholBuild sqrt A c c k) =
      ∑ k in Finset.range c, cholL sqrt A r' k * cholL sqrt A c k := by
  apply Finset.sum_congr rfl
  intro k hk
  rw [Finset.mem_range] at hk
  rw [cholBuild_eq_cholL sqrt A c r' k hk, cholBuild_eq_cholL sqrt A c c k hk]

theorem cholL_diag {α : Type} [LinearOrderedField α] (sqrt : α → α)
    (A : Mat α) (c : Nat) : cholL sqrt A c c = sqrt (cholDiag sqrt A c) := by
  rw [cholL, cholBuild]
  simp only [if_pos rfl, if_neg (lt_irrefl c), if_pos rfl]
  rw [cholDiag, cholBuild_sum_eq sqrt A c c]
  simp

theorem cholL_below {α : Type} [LinearOrderedField α] (sqrt : α → α)
    (A : Mat α) (r c : Nat) (h : c < r) :
    cholL sqrt A r c =
      (A.entry r c - ∑ k in Finset.range c, cholL sqrt A r k * cholL sqrt A c k) /
        sqrt (cholDiag sqrt A c) := by
  rw [cholL, cholBuild]
  simp only [if_pos rfl, if_neg (by omega : ¬ r < c), if_neg (by omega : ¬ r = c)]
  rw [cholDiag, cholBuild_sum_eq sqrt A c r, cholBuild_sum_eq sqrt A c c]
  simp

theorem ColsDone.toPanel {α : Type} [LinearOrderedField α] {sqrt : α → α}
    {A : Mat α} {n jj j_end : Nat} {L : Mat α}
    (h : ColsDone sqrt A n jj L) : PanelDone sqrt A n jj jj j_end L := by
  obtain ⟨h1, h2, h3, h4⟩ := h
  exact ⟨h1, h2, h3, fun r cc hcc hcc' _ => by omega,
    fun r cc hcc hcc' _ => by omega, fun r cc hcc => h4 r cc (by omega)⟩

theorem PanelDone.toTrail {α : Type} [LinearOrderedField α] {sqrt : α → α}
    {A : Mat α} {n jj j_end : Nat} {L : Mat α}
    (h : PanelDone sqrt A n jj j_end j_end L) :
    TrailDone sqrt A n jj j_end j_end L := by
  obtain ⟨h1, h2, h3, h4, h5, h6⟩ := h
  exact ⟨h1, h2, h3, h4, h5, h6⟩

theorem TrailDone.toCols {α : Type} [LinearOrderedField α] {sqrt : α → α}
    {A : Mat α} {n jj j_end rdone : Nat} {L : Mat α} (hn : n ≤ rdone)
    (_hjjn : jj ≤ j_end) (h : TrailDone sqrt A n jj j_end rdone L) :
    ColsDone sqrt A n j_end L := by
  obtain ⟨h1, h2, h3, h4, h5, h6⟩ := h
  refine ⟨h1, h2, fun r cc hr hcc => ?_, h6⟩
  by_cases hcc' : cc < jj
  · exact h3 r cc hr hcc'
  · exact h4 r cc (by omega) hcc (by omega)

/-- One successful iteration of the panel column loop: with the state as
described by `PanelDone … j` and a positive pivot `cholDiag j`, the body
computes exactly the recurrence values of column `j` for the panel rows. -/
theorem cholPanelCol_ok {α : Type} [LinearOrderedField α] (sqrt : α → α)
    (A : Mat α) (n jj j_end j : Nat) (L : Mat α)
    (hjj : jj ≤ j) (hj : j < j_end) (hje : j_end ≤ n)
    (hP : PanelDone sqrt A n jj j j_end L)
    (hd : 0 < cholDiag sqrt A j) :
    ∃ L', cholPanelCol sqrt A j_end L j = .ok L' ∧
      PanelDone sqrt A n jj (j + 1) j_end L' := by
  obtain ⟨hr, hc, hprev, hpan, hpan0, hzero⟩ := hP
  have hsum : sumRange 0 j (fun k => L.entry j k * L.entry j k) =
      ∑ k in Finset.range j, cholL sqrt A j k * cholL sqrt A j k := by
    rw [sumRange_congr 0 j _ (fun k => cholL sqrt A j k * cholL sqrt A j k)
      (fun k hk0 hkj => ?_), sumRange_zero_eq]
    by_cases hkjj : k < jj
    · rw [hprev j k (by omega) hkjj]
    · rw [hpan j k (by omega) hkj (by omega)]
  have hdiag : A.entry j j - sumRange 0 j (fun k => L.entry j k * L.entry j k) =
      cholDiag sqrt A j := by
    rw [hsum, cholDiag]
  have hinit : CholColMid sqrt A n jj j_end j
      (L.set j j (sqrt (cholDiag sqrt A j))) (j + 1) := by
    refine ⟨by simp [hr], by simp [hc], ?_, ?_, ?_, ?_, ?_, ?_, ?_, ?_⟩
    · intro r cc hrn hcc
      rw [Mat.entry_set_ne _ _ _ _ _ _ (by omega)]
      exact hprev r cc hrn hcc
    · intro r cc hcc hcc' hrj
      rw [Mat.entry_set_ne _ _ _ _ _ _ (by omega)]
      exact hpan r cc hcc hcc' hrj
    · intro r cc hcc hcc' hrj
      rw [Mat.entry_set_ne _ _ _ _ _ _ (by omega)]
      exact hpan0 r cc hcc hcc' hrj
    · intro r cc hcc
      rw [Mat.entry_set_ne _ _ _ _ _ _ (by omega)]
      exact hzero r cc (by omega)
    · intro r hrj
      rw [Mat.entry_set_ne _ _ _ _ _ _ (by omega)]
      exact hzero r j (by omega)
    · rw [Mat.entry_set_same, cholL_diag]
    · intro r h1 h2; omega
    · intro r h1 h2
      rw [Mat.entry_set_ne _ _ _ _ _ _ (by omega)]
      exact hzero r j (by omega)
  have hstep : ∀ L2 i, j + 1 ≤ i → i < j_end → CholColMid sqrt A n jj j_end j L2 i →
      CholColMid sqrt A n jj j_end j
        (L2.set i j ((A.entry i j -
          sumRange 0 j (fun k => L2.entry i k * L2.entry j k)) / L2.entry j j))
        (i + 1) := by
    rintro L2 i hi hi' ⟨q1, q2, q3, q4, q5, q6, q7, q8, q9, q10⟩
    have hrowi : ∀ k, k < j → L2.entry i k = cholL sqrt A i k := by
      intro k hk
      by_cases hkjj : k < jj
      · exact q3 i k (by omega) hkjj
      · exact q4 i k (by omega) hk (by omega)
    have hrowj : ∀ k, k < j → L2.entry j k = cholL sqrt A j k := by
      intro k hk
      by_cases hkjj : k < jj
      · exact q3 j k (by omega) hkjj
      · exact q4 j k (by omega) hk (by omega)
    have hsum_i : sumRange 0 j (fun k => L2.entry i k * L2.entry j k) =
        ∑ k in Finset.range j, cholL sqrt A i k * cholL sqrt A j k := by
      rw [sumRange_congr 0 j _ (fun k => cholL sqrt A i k * cholL sqrt A j k)
        (fun k hk0 hkj => by rw [hrowi k hkj, hrowj k hkj]), sumRange_zero_eq]
    have hval : (A.entry i j - sumRange 0 j (fun k => L2.entry i k * L2.entry j k)) /
        L2.entry j j = cholL sqrt A i j := by
      rw [hsum_i, q8, cholL_diag, ← cholL_below sqrt A i j (by omega)]
    refine ⟨by simp [q1], by simp [q2], ?_, ?_, ?_, ?_, ?_, ?_, ?_, ?_⟩
    · intro r cc hrn hcc
      rw [Mat.entry_set_ne _ _ _ _ _ _ (by omega)]
      exact q3 r cc hrn hcc
    · intro r cc hcc hcc' hrj
      rw [Mat.entry_set_ne _ _ _ _ _ _ (by omega)]
      exact q4 r cc hcc hcc' hrj
    · intro r cc hcc hcc' hrj
      rw [Mat.entry_set_ne _ _ _ _ _ _ (by omega)]
      exact q5 r cc hcc hcc' hrj
    · intro r cc hcc
      rw [Mat.entry_set_ne _ _ _ _ _ _ (by omega)]
      exact q6 r cc hcc
    · intro r hrj
      rw [Mat.entry_set_ne _ _ _ _ _ _ (by omega)]
      exact q7 r hrj
    · rw [Mat.entry_set_ne _ _ _ _ _ _ (by omega)]
      exact q8
    · intro r h1 h2
      by_cases hri : r = i
      · subst hri
        rw [Mat.entry_set_same]
        exact hval
      · rw [Mat.entry_set_ne _ _ _ _ _ _ (by omega)]
        exact q9 r h1 (by omega)
    · intro r h1 h2
      rw [Mat.entry_set_ne _ _ _ _ _ _ (by omega)]
      exact q10 r h1 (by omega)
  rw [cholPanelCol]
  simp only [hdiag, not_le.mpr hd, if_false]
  refine ⟨_, rfl, ?_⟩
  have hQ := forRange_inv (CholColMid sqrt A n jj j_end j) (j + 1) j_end
    (fun L2 i => L2.set i j ((A.entry i j -
      sumRange 0 j (fun k => L2.entry i k * L2.entry j k)) / L2.entry j j))
    (L.set j j (sqrt (cholDiag sqrt A j))) (by omega) hinit hstep
  obtain ⟨q1, q2, q3, q4, q5, q6, q7, q8, q9, q10⟩ := hQ
  refine ⟨q1, q2, q3, ?_, ?_, ?_⟩
  · intro r cc hcc hcc' hrj
    by_cases hccj : cc < j
    · exact q4 r cc hcc hccj hrj
    · have hccj' : j = cc := by omega
      subst hccj'
      rcases Nat.lt_trichotomy r j with hlt | heq | hgt
      · rw [q7 r hlt, cholL_above sqrt A r j hlt]
      · subst heq; exact q8
      · exact q9 r hgt hrj
  · intro r cc hcc hcc' hrj
    by_cases hccj : cc < j
    · exact q5 r cc hcc hccj hrj
    · have hccj' : j = cc := by omega
      subst hccj'
      exact q10 r (by omega) (by omega)
  · intro r cc hcc
    exact q6 r cc (by omega)

/-- Failing iteration of the panel column loop: with the state as described
by `PanelDone … j` and `cholDiag j ≤ 0`, the body throws the
not-positive-definite `std::invalid_argument`. -/
theorem cholPanelCol_err {α : Type} [LinearOrderedField α] (sqrt : α → α)
    (A : Mat α) (n jj j_end j : Nat) (L : Mat α)
    (_hjj : jj ≤ j) (hj : j < j_end) (hje : j_end ≤ n)
    (hP : PanelDone sqrt A n jj j j_end L)
    (hd : cholDiag sqrt A j ≤ 0) :
    cholPanelCol sqrt A j_end L j =
      .error (.invalid_argument "Matrix is not positive definite!") := by
  obtain ⟨hr, hc, hprev, hpan, hpan0, hzero⟩ := hP
  have hsum : sumRange 0 j (fun k => L.entry j k * L.entry j k) =
      ∑ k in Finset.range j, cholL sqrt A j k * cholL sqrt A j k := by
    rw [sumRange_congr 0 j _ (fun k => cholL sqrt A j k * cholL sqrt A j k)
      (fun k hk0 hkj => ?_), sumRange_zero_eq]
    by_cases hkjj : k < jj
    · rw [hprev j k (by omega) hkjj]
    · rw [hpan j k (by omega) hkj (by omega)]
  have hdiag : A.entry j j - sumRange 0 j (fun k => L.entry j k * L.entry j k) =
      cholDiag sqrt A j := by
    rw [hsum, cholDiag]
  rw [cholPanelCol]
  simp only [hdiag, hd, if_true]

/-- The panel phase of one block succeeds when every pivot of the panel is
positive, leaving the panel columns final for the panel rows. -/
theorem cholPanel_ok {α : Type} [LinearOrderedField α] (sqrt : α → α)
    (A : Mat α) (n jj j_end : Nat) (L : Mat α)
    (hjje : jj ≤ j_end) (hje : j_end ≤ n)
    (hL : ColsDone sqrt A n jj L)
    (hd : ∀ j, jj ≤ j → j < j_end → 0 < cholDiag sqrt A j) :
    ∃ L', forRangeM jj j_end (cholPanelCol sqrt A j_end) L = .ok L' ∧
      PanelDone sqrt A n jj j_end j_end L' := by
  exact forRangeM_inv (fun L2 c => PanelDone sqrt A n jj c j_end L2) jj j_end
    (cholPanelCol sqrt A j_end) L hjje hL.toPanel
    (fun t j hj1 hj2 hP =>
      cholPanelCol_ok sqrt A n jj j_end j t hj1 hj2 hje hP (hd j hj1 hj2))

/-- The panel phase of one block throws the not-positive-definite error as
soon as it reaches the first column `j₀` whose pivot is non-positive. -/
theorem cholPanel_err {α : Type} [LinearOrderedField α] (sqrt : α → α)
    (A : Mat α) (n jj j_end j₀ : Nat) (L : Mat α)
    (hjj : jj ≤ j₀) (hj₀ : j₀ < j_end) (hje : j_end ≤ n)
    (hL : ColsDone sqrt A n jj L)
    (hdpos : ∀ j, jj ≤ j → j < j₀ → 0 < cholDiag sqrt A j)
    (hdbad : cholDiag sqrt A j₀ ≤ 0) :
    forRangeM jj j_end (cholPanelCol sqrt A j_end) L =
      .error (.invalid_argument "Matrix is not positive definite!") := by
  exact forRangeM_err (fun L2 c => PanelDone sqrt A n jj c j_end L2) jj j_end j₀
    _ (cholPanelCol sqrt A j_end) L hjj hj₀ hL.toPanel
    (fun t j hj1 hj2 hP =>
      cholPanelCol_ok sqrt A n jj j_end j t hj1 (by omega) hje hP (hdpos j hj1 hj2))
    (fun t hP => cholPanelCol_err sqrt A n jj j_end j₀ t hjj hj₀ hje hP hdbad)

/-- One row of the trailing update: the per-row column loop fills row `i` of
the panel columns with its final values. -/
theorem cholTrailRow_ok {α : Type} [LinearOrderedField α] (sqrt : α → α)
    (A : Mat α) (n jj j_end i : Nat) (L : Mat α)
    (hjje : jj ≤ j_end) (hji : j_end ≤ i) (hin : i < n)
    (hT : TrailDone sqrt A n jj j_end i L) :
    TrailDone sqrt A n jj j_end (i + 1)
      (forRange jj j_end (fun L2 j =>
        L2.set i j ((A.entry i j -
          sumRange 0 j (fun k => L2.entry i k * L2.entry j k)) / L2.entry j j)) L) := by
  obtain ⟨hr, hc, hprev, hdone, hzero, hlast⟩ := hT
  have hQ := forRange_inv (CholTrailRowMid sqrt A n jj j_end i) jj j_end
    (fun L2 j => L2.set i j ((A.entry i j -
      sumRange 0 j (fun k => L2.entry i k * L2.entry j k)) / L2.entry j j)) L hjje
    ⟨hr, hc, hprev, hdone, fun cc h1 h2 => by omega,
      fun cc h1 h2 => hzero i cc h1 h2 le_rfl,
      fun r cc h1 h2 h3 => hzero r cc h1 h2 (by omega), hlast⟩ ?_
  · obtain ⟨q1, q2, q3, q4, q5, q6, q7, q8⟩ := hQ
    refine ⟨q1, q2, q3, ?_, ?_, q8⟩
    · intro r cc h1 h2 h3
      rcases Nat.lt_or_ge r i with hri | hri
      · exact q4 r cc h1 h2 hri
      · have : r = i := by omega
        subst this
        exact q5 cc h1 h2
    · intro r cc h1 h2 h3
      exact q7 r cc h1 h2 (by omega)
  · rintro L2 j hj1 hj2 ⟨q1, q2, q3, q4, q5, q6, q7, q8⟩
    have hrowi : ∀ k, k < j → L2.entry i k = cholL sqrt A i k := by
      intro k hk
      by_cases hkjj : k < jj
      · exact q3 i k hin hkjj
      · exact q5 k (by omega) hk
    have hrowj : ∀ k, k < j → L2.entry j k = cholL sqrt A j k := by
      intro k hk
      by_cases hkjj : k < jj
      · exact q3 j k (by omega) hkjj
      · exact q4 j k (by omega) (by omega) (by omega)
    have hjj' : L2.entry j j = cholL sqrt A j j := q4 j j (by omega) (by omega) (by omega)
    have hsum_i : sumRange 0 j (fun k => L2.entry i k * L2.entry j k) =
        ∑ k in Finset.range j, cholL sqrt A i k * cholL sqrt A j k := by
      rw [sumRange_congr 0 j _ (fun k => cholL sqrt A i k * cholL sqrt A j k)
        (fun k hk0 hkj => by rw [hrowi k hkj, hrowj k hkj]), sumRange_zero_eq]
    have hval : (A.entry i j - sumRange 0 j (fun k => L2.entry i k * L2.entry j k)) /
        L2.entry j j = cholL sqrt A i j := by
      rw [hsum_i, hjj', cholL_diag, ← cholL_below sqrt A i j (by omega)]
    refine ⟨by simp [q1], by simp [q2], ?_, ?_, ?_, ?_, ?_, ?_⟩
    · intro r cc h1 h2
      rw [Mat.entry_set_ne _ _ _ _ _ _ (by omega)]
      exact q3 r cc h1 h2
    · intro r cc h1 h2 h3
      rw [Mat.entry_set_ne _ _ _ _ _ _ (by omega)]
      exact q4 r cc h1 h2 h3
    · intro cc h1 h2
      by_cases hcj : cc = j
      · subst hcj
        rw [Mat.entry_set_same]
        exact hval
      · rw [Mat.entry_set_ne _ _ _ _ _ _ (by omega)]
        exact q5 cc h1 (by omega)
    · intro cc h1 h2
      rw [Mat.entry_set_ne _ _ _ _ _ _ (by omega)]
      exact q6 cc (by omega) h2
    · intro r cc h1 h2 h3
      rw [Mat.entry_set_ne _ _ _ _ _ _ (by omega)]
      exact q7 r cc h1 h2 h3
    · intro r cc h1
      rw [Mat.entry_set_ne _ _ _ _ _ _ (by omega)]
      exact q8 r cc h1

/-- One trailing row-block: rows `[ii, min (ii+BLOCK_SIZE) n)` of the panel
columns get their final values. -/
theorem cholTrailBlock_ok {α : Type} [LinearOrderedField α] (sqrt : α → α)
    (A : Mat α) (n jj j_end ii : Nat) (L : Mat α)
    (hjje : jj ≤ j_end) (hji : j_end ≤ ii) (hin : ii < n)
    (hT : TrailDone sqrt A n jj j_end ii L) :
    TrailDone sqrt A n jj j_end (min (ii + BLOCK_SIZE) n)
      (cholTrailBlock A jj j_end n L ii) := by
  rw [cholTrailBlock]
  have hQ := forRange_inv (fun L1 i => TrailDone sqrt A n jj j_end i L1)
    ii (min (ii + BLOCK_SIZE) n)
    (fun L1 i => forRange jj j_end (fun L2 j =>
      L2.set i j ((A.entry i j -
        sumRange 0 j (fun k => L2.entry i k * L2.entry j k)) / L2.entry j j)) L1)
    L (by omega) hT ?_
  · exact hQ
  · intro L1 i h1 h2 hP
    exact cholTrailRow_ok sqrt A n jj j_end i L1 hjje (by omega) (by omega) hP

/-- The whole trailing update of one block: every row below the panel gets
its final panel-column values, completing columns `< j_end`. -/
theorem cholTrail_ok {α : Type} [LinearOrderedField α] (sqrt : α → α)
    (A : Mat α) (n jj j_end : Nat) (L : Mat α)
    (hjje : jj ≤ j_end) (hje : j_end ≤ n)
    (hP : PanelDone sqrt A n jj j_end j_end L) :
    ColsDone sqrt A n j_end
      (forStep j_end n BLOCK_SIZE (cholTrailBlock A jj j_end n) L) := by
  have hQ := forStep_inv (fun L1 ii => TrailDone sqrt A n jj j_end (min ii n) L1)
    j_end n BLOCK_SIZE (cholTrailBlock A jj j_end n) L (by simp [BLOCK_SIZE])
    (by simpa [Nat.min_eq_left hje] using hP.toTrail) ?_
  · obtain ⟨j', hj', hT⟩ := hQ
    have : min j' n = n := by omega
    rw [this] at hT
    exact hT.toCols le_rfl hjje
  · intro L1 ii h1 h2 hT
    have : min ii n = ii := by omega
    rw [this] at hT
    exact cholTrailBlock_ok sqrt A n jj j_end ii L1 hjje h1 h2 hT

/-- Error-source rule for `forRangeM`: a failing loop has a failing body
iteration. -/
theorem forRangeM_error_src {σ ε : Type} (lo hi : Nat) (f : σ → Nat → Except ε σ)
    (s : σ) (e : ε) (hrun : forRangeM lo hi f s = .error e) :
    ∃ t j, lo ≤ j ∧ j < hi ∧ f t j = .error e := by
  by_cases h : lo < hi
  · rw [forRangeM_step lo hi f s h] at hrun
    cases hf : f s lo with
    | error e' =>
      rw [hf] at hrun
      cases hrun
      exact ⟨s, lo, le_rfl, h, hf⟩
    | ok t =>
      rw [hf] at hrun
      obtain ⟨t', j, hj1, hj2, hf'⟩ := forRangeM_error_src (lo + 1) hi f t e hrun
      exact ⟨t', j, by omega, hj2, hf'⟩
  · rw [forRangeM_stop lo hi f s h] at hrun
    exact absurd hrun (by simp)
termination_by hi - lo
decreasing_by omega

/-- Error-source rule for `forStepM`. -/
theorem forStepM_error_src {σ ε : Type} (lo hi step : Nat)
    (f : σ → Nat → Except ε σ) (s : σ) (e : ε)
    (hrun : forStepM lo hi step f s = .error e) :
    ∃ t j, lo ≤ j ∧ j < hi ∧ f t j = .error e := by
  by_cases h : lo < hi ∧ 0 < step
  · rw [forStepM_step lo hi step f s h] at hrun
    cases hf : f s lo with
    | error e' =>
      rw [hf] at hrun
      cases hrun
      exact ⟨s, lo, le_rfl, h.1, hf⟩
    | ok t =>
      rw [hf] at hrun
      obtain ⟨t', j, hj1, hj2, hf'⟩ := forStepM_error_src (lo + step) hi step f t e hrun
      exact ⟨t', j, by omega, hj2, hf'⟩
  · rw [forStepM_stop lo hi step f s h] at hrun
    exact absurd hrun (by simp)
termination_by hi - lo
decreasing_by omega

/-- The only error `cholPanelCol` can produce is the not-positive-definite
`std::invalid_argument`. -/
theorem cholPanelCol_error_eq {α : Type} [LinearOrderedField α] (sqrt : α → α)
    (A : Mat α) (j_end j : Nat) (L : Mat α) (e : CppError)
    (hrun : cholPanelCol sqrt A j_end L j = .error e) :
    e = .invalid_argument "Matrix is not positive definite!" := by
  simp only [cholPanelCol] at hrun
  split at hrun
  · exact (Except.error.inj hrun).symm
  · exact absurd hrun (by simp)

/-- One block of `detail::_cholesky` succeeds when every pivot of its panel
is positive, completing all columns below `min (jj+BLOCK_SIZE, n)`. -/
theorem cholBlockStep_ok {α : Type} [LinearOrderedField α] (sqrt : α → α)
    (A : Mat α) (jj : Nat) (L : Mat α) (hjj : jj < A.rows)
    (hd : ∀ j, jj ≤ j → j < min (jj + BLOCK_SIZE) A.rows → 0 < cholDiag sqrt A j)
    (hL : ColsDone sqrt A A.rows jj L) :
    ∃ L', cholBlockStep sqrt A L jj = .ok L' ∧
      ColsDone sqrt A A.rows (min (jj + BLOCK_SIZE) A.rows) L' := by
  obtain ⟨L1, hok, hP⟩ := cholPanel_ok sqrt A A.rows jj (min (jj + BLOCK_SIZE) A.rows)
    L (by omega) (by omega) hL hd
  refine ⟨forStep (min (jj + BLOCK_SIZE) A.rows) A.rows BLOCK_SIZE
    (cholTrailBlock A jj (min (jj + BLOCK_SIZE) A.rows) A.rows) L1, ?_, ?_⟩
  · simp only [cholBlockStep, hok]
  · exact cholTrail_ok sqrt A A.rows jj _ L1 (by omega) (by omega) hP

/-- One block of `detail::_cholesky` fails with the not-positive-definite
error when its panel contains the first non-positive pivot `j₀`. -/
theorem cholBlockStep_err {α : Type} [LinearOrderedField α] (sqrt : α → α)
    (A : Mat α) (jj j₀ : Nat) (L : Mat α)
    (hjj : jj ≤ j₀) (hj₀ : j₀ < min (jj + BLOCK_SIZE) A.rows)
    (hpos : ∀ j, jj ≤ j → j < j₀ → 0 < cholDiag sqrt A j)
    (hbad : cholDiag sqrt A j₀ ≤ 0)
    (hL : ColsDone sqrt A A.rows jj L) :
    cholBlockStep sqrt A L jj =
      .error (.invalid_argument "Matrix is not positive definite!") := by
  have herr := cholPanel_err sqrt A A.rows jj (min (jj + BLOCK_SIZE) A.rows) j₀ L
    hjj hj₀ (by omega) hL hpos hbad
  simp only [cholBlockStep, herr]

/-- The only error `cholBlockStep` can produce is the not-positive-definite
`std::invalid_argument`. -/
theorem cholBlockStep_error_eq {α : Type} [LinearOrderedField α] (sqrt : α → α)
    (A : Mat α) (jj : Nat) (L : Mat α) (e : CppError)
    (hrun : cholBlockStep sqrt A L jj = .error e) :
    e = .invalid_argument "Matrix is not positive definite!" := by
  simp only [cholBlockStep] at hrun
  cases hr : forRangeM jj (min (jj + BLOCK_SIZE) A.rows)
      (cholPanelCol sqrt A (min (jj + BLOCK_SIZE) A.rows)) L with
  | error e' =>
    rw [hr] at hrun
    cases hrun
    obtain ⟨t, j, _, _, hf⟩ := forRangeM_error_src _ _ _ _ _ hr
    exact cholPanelCol_error_eq sqrt A _ j t e hf
  | ok L1 =>
    rw [hr] at hrun
    exact absurd hrun (by simp)

/-- On a symmetric input whose pivots are all positive, `detail::_cholesky`
succeeds and its result is described entrywise by the `cholL` recurrence. -/
theorem cholesky_ok_all_pos {α : Type} [LinearOrderedField α] (sqrt : α → α)
    (A : Mat α) (hsym : A.is_symmetric = true) (hn : 0 < A.rows)
    (hd : ∀ j, j < A.rows → 0 < cholDiag sqrt A j) :
    ∃ L', cholesky sqrt A = .ok L' ∧ ColsDone sqrt A A.rows A.rows L' := by
  rw [cholesky, if_neg (by simp [hsym]), Mat.create,
    if_neg (by simp; omega)]
  have hrun := forStepM_inv (fun L jj => ColsDone sqrt A A.rows (min jj A.rows) L)
    0 A.rows BLOCK_SIZE (cholBlockStep sqrt A) ⟨A.rows, A.rows, fun _ _ => 0⟩
    (by norm_num [BLOCK_SIZE])
    ⟨rfl, rfl, fun r cc hr hcc => by omega, fun r cc hcc => rfl⟩ ?_
  · obtain ⟨s', j', hok, hj', hP⟩ := hrun
    have hm : min j' A.rows = A.rows := by omega
    rw [hm] at hP
    exact ⟨s', hok, hP⟩
  · intro t jj h0 hjjn hP
    have hm : min jj A.rows = jj := by omega
    rw [hm] at hP
    obtain ⟨t', hok, hP'⟩ := cholBlockStep_ok sqrt A jj t hjjn
      (fun j h1 h2 => hd j (by omega)) hP
    exact ⟨t', hok, by rwa [Nat.min_comm] at hP' ⊢⟩

/-- On a symmetric input, `detail::_cholesky` throws the
not-positive-definite error at the first column `j₀` whose pivot is
non-positive. -/
theorem cholesky_err_pd {α : Type} [LinearOrderedField α] (sqrt : α → α)
    (A : Mat α) (j₀ : Nat) (hsym : A.is_symmetric = true) (hj₀ : j₀ < A.rows)
    (hbad : cholDiag sqrt A j₀ ≤ 0)
    (hpos : ∀ j, j < j₀ → 0 < cholDiag sqrt A j) :
    cholesky sqrt A =
      .error (.invalid_argument "Matrix is not positive definite!") := by
  have hB : BLOCK_SIZE = 64 := rfl
  rw [cholesky, if_neg (by simp [hsym]), Mat.create,
    if_neg (by simp; omega)]
  refine forStepM_err (fun L jj => ColsDone sqrt A A.rows (min jj A.rows) L)
    0 A.rows 64 (j₀ / 64) _ (cholBlockStep sqrt A)
    ⟨A.rows, A.rows, fun _ _ => 0⟩ (by norm_num) (by omega)
    ⟨rfl, rfl, fun r cc hr hcc => by omega, fun r cc hcc => rfl⟩
    (fun t m' hm' hP => ?_) (fun t hP => ?_)
  · have hjj : 0 + m' * 64 < A.rows := by omega
    have hm : min (0 + m' * 64) A.rows = 0 + m' * 64 := by omega
    simp only at hP
    rw [hm] at hP
    obtain ⟨t', hok, hP'⟩ := cholBlockStep_ok sqrt A (0 + m' * 64) t hjj
      (fun j h1 h2 => hpos j (by rw [hB] at h2; omega)) hP
    rw [hB] at hP'
    exact ⟨t', hok, hP'⟩
  · have hm : min (0 + j₀ / 64 * 64) A.rows = 0 + j₀ / 64 * 64 := by omega
    simp only at hP
    rw [hm] at hP
    exact cholBlockStep_err sqrt A _ j₀ t (by omega) (by rw [hB]; omega)
      (fun j h1 h2 => hpos j h2) hbad hP

/-- A non-symmetric input makes `detail::_cholesky` throw the symmetry
`std::invalid_argument` immediately. -/
theorem cholesky_not_sym {α : Type} [LinearOrderedField α] (sqrt : α → α)
    (A : Mat α) (hsym : A.is_symmetric = false) :
    cholesky sqrt A =
      .error (.invalid_argument "Matrix must be symmetric to try Cholesky decomposition!") := by
  rw [cholesky, if_pos hsym]

/-- Every error `detail::_cholesky` can throw is one of: the symmetry
precondition error, the zero-dimension constructor error, or the
not-positive-definite error — all of class `std::invalid_argument`. -/
theorem cholesky_error_cases {α : Type} [LinearOrderedField α] (sqrt : α → α)
    (A : Mat α) (e : CppError) (hrun : cholesky sqrt A = .error e) :
    e = .invalid_argument "Matrix must be symmetric to try Cholesky decomposition!" ∨
    e = .invalid_argument "Matrix dimensions must be greater than zero." ∨
    e = .invalid_argument "Matrix is not positive definite!" := by
  rw [cholesky] at hrun
  by_cases hsym : A.is_symmetric = false
  · rw [if_pos hsym] at hrun
    exact Or.inl (Except.error.inj hrun).symm
  · rw [if_neg hsym] at hrun
    rw [Mat.create] at hrun
    by_cases hn : A.rows = 0
    · simp only [hn] at hrun
      simp at hrun
      exact Or.inr (Or.inl hrun.symm)
    · rw [if_neg (by simp [hn])] at hrun
      obtain ⟨t, j, _, _, hf⟩ := forStepM_error_src _ _ _ _ _ _ hrun
      exact Or.inr (Or.inr (cholBlockStep_error_eq sqrt A j t e hf))

/-- On a symmetric input, `detail::_cholesky` can only throw the
zero-dimension constructor error or the not-positive-definite error. -/
theorem cholesky_error_cases_sym {α : Type} [LinearOrderedField α] (sqrt : α → α)
    (A : Mat α) (e : CppError) (hsym : A.is_symmetric = true)
    (hrun : cholesky sqrt A = .error e) :
    e = .invalid_argument "Matrix dimensions must be greater than zero." ∨
    e = .invalid_argument "Matrix is not positive definite!" := by
  rw [cholesky, if_neg (by simp [hsym]), Mat.create] at hrun
  by_cases hn : A.rows = 0
  · simp only [hn] at hrun
    simp at hrun
    exact Or.inl hrun.symm
  · rw [if_neg (by simp [hn])] at hrun
    obtain ⟨t, j, _, _, hf⟩ := forStepM_error_src _ _ _ _ _ _ hrun
    exact Or.inr (cholBlockStep_error_eq sqrt A j t e hf)

/-- Characterisation of `Matrix<T>::is_symmetric()`: it accepts exactly the
square matrices whose entry pairs above the diagonal agree within the strict
`EPSILON = 1e-6` tolerance. -/
theorem is_symmetric_iff {α : Type} [LinearOrderedField α] (A : Mat α) :
    A.is_symmetric = true ↔
      (A.rows = A.cols ∧ ∀ i j, i < A.rows → i < j → j < A.cols →
        |A.entry i j - A.entry j i| < EPSILON) := by
  rw [Mat.is_symmetric, Bool.and_eq_true]
  constructor
  · rintro ⟨hsq, hall⟩
    refine ⟨by simpa [Mat.is_square] using hsq, ?_⟩
    intro i j hi hij hj
    rw [List.all_eq_true] at hall
    have h1 := hall i (by rw [List.mem_range]; exact hi)
    rw [List.all_eq_true] at h1
    have h2 := h1 j (by rw [List.mem_range'_1]; omega)
    rw [is_close_iff] at h2
    exact h2
  · rintro ⟨hsq, hall⟩
    refine ⟨by simpa [Mat.is_square] using hsq, ?_⟩
    rw [List.all_eq_true]
    intro i hi
    rw [List.mem_range] at hi
    rw [List.all_eq_true]
    intro j hj
    rw [List.mem_range'_1] at hj
    rw [is_close_iff]
    exact hall i j hi (by omega) (by omega)

/-- Full characterisation of the symmetry error of `detail::_cholesky`. -/
theorem cholesky_symm_error_iff {α : Type} [LinearOrderedField α] (sqrt : α → α)
    (A : Mat α) :
    cholesky sqrt A =
        .error (.invalid_argument "Matrix must be symmetric to try Cholesky decomposition!") ↔
      A.is_symmetric = false := by
  constructor
  · intro hrun
    by_cases hsym : A.is_symmetric = true
    · rcases cholesky_error_cases_sym sqrt A _ hsym hrun with h | h <;> simp at h
    · simpa using hsym
  · exact cholesky_not_sym sqrt A

/-- Full characterisation of the not-positive-definite error of
`detail::_cholesky`: it is thrown exactly when the input passes the symmetry
check and some pivot `cholDiag j`, `j < n`, is non-positive. -/
theorem cholesky_pd_error_iff {α : Type} [LinearOrderedField α] (sqrt : α → α)
    (A : Mat α) :
    cholesky sqrt A = .error (.invalid_argument "Matrix is not positive definite!") ↔
      (A.is_symmetric = true ∧ ∃ j, j < A.rows ∧ cholDiag sqrt A j ≤ 0) := by
  constructor
  · intro hrun
    by_cases hsym : A.is_symmetric = true
    · refine ⟨hsym, ?_⟩
      by_contra hno
      push_neg at hno
      by_cases hn : A.rows = 0
      · rw [cholesky, if_neg (by simp [hsym]), Mat.create, hn] at hrun
        simp at hrun
      · obtain ⟨L', hok, _⟩ := cholesky_ok_all_pos sqrt A hsym (by omega)
          (fun j hj => hno j hj)
        rw [hok] at hrun
        exact absurd hrun (by simp)
    · have hsym' : A.is_symmetric = false := by simpa using hsym
      rw [cholesky_not_sym sqrt A hsym'] at hrun
      simp at hrun
  · rintro ⟨hsym, j, hj, hbad⟩
    have hex : ∃ m, m < A.rows ∧ cholDiag sqrt A m ≤ 0 := ⟨j, hj, hbad⟩
    classical
    let j₀ := Nat.find hex
    have hspec := Nat.find_spec hex
    refine cholesky_err_pd sqrt A j₀ hsym hspec.1 hspec.2 ?_
    intro m hm
    have := Nat.find_min hex hm
    push_neg at this
    exact this (by omega)

/-- Specification of `findPivot`: the selected pivot row lies in `[i, n)`,
`max_val` is the magnitude of the selected entry, and no entry of column `i`
in rows `i..n-1` has larger magnitude. -/
theorem findPivot_spec {α : Type} [LinearOrderedField α] (U : Mat α) (n i : Nat)
    (hin : i < n) :
    i ≤ (findPivot U n i).2 ∧ (findPivot U n i).2 < n ∧
      (findPivot U n i).1 = |U.entry (findPivot U n i).2 i| ∧
      (∀ j, i ≤ j → j < n → |U.entry j i| ≤ (findPivot U n i).1) := by
  have h := forRange_inv (fun (mp : α × Nat) jdx =>
      i ≤ mp.2 ∧ mp.2 < n ∧ mp.1 = |U.entry mp.2 i| ∧
      ∀ j, i ≤ j → j < jdx → |U.entry j i| ≤ mp.1)
    (i + 1) n (fun mp j =>
      if mp.1 < |U.entry j i| then (|U.entry j i|, j) else mp)
    (|U.entry i i|, i) (by omega)
    ⟨le_rfl, hin, rfl, fun j h1 h2 => by
      have : j = i := by omega
      subst this; exact le_rfl⟩ ?_
  · obtain ⟨h1, h2, h3, h4⟩ := h
    exact ⟨h1, h2, h3, fun j hj1 hj2 => h4 j hj1 hj2⟩
  · rintro ⟨mv, pr⟩ j hj1 hj2 ⟨q1, q2, q3, q4⟩
    beta_reduce
    by_cases hlt : mv < |U.entry j i|
    · rw [if_pos hlt]
      refine ⟨by omega, hj2, rfl, fun j' h1 h2 => ?_⟩
      by_cases hj' : j' = j
      · subst hj'; exact le_rfl
      · exact le_of_lt (lt_of_le_of_lt (q4 j' h1 (by omega)) hlt)
    · rw [if_neg hlt]
      refine ⟨q1, q2, q3, fun j' h1 h2 => ?_⟩
      by_cases hj' : j' = j
      · subst hj'; exact not_lt.mp hlt
      · exact q4 j' h1 (by omega)

/-- A `forRange` body that preserves a state property preserves it across
the whole loop. -/
theorem forRange_pres {σ : Type} (P : σ → Prop) (lo hi : Nat) (f : σ → Nat → σ)
    (s : σ) (hinit : P s) (hstep : ∀ t j, lo ≤ j → j < hi → P t → P (f t j)) :
    P (forRange lo hi f s) := by
  by_cases h : lo < hi
  · exact forRange_inv (fun t _ => P t) lo hi f s (by omega) hinit
      (fun t j h1 h2 hP => hstep t j h1 h2 hP)
  · rw [forRange_stop _ _ _ _ h]
    exact hinit

theorem set_getD_self (l : List Nat) (i : Nat) (hi : i < l.length) :
    l.set i (l.getD i 0) = l := by
  apply List.ext_getElem
  · simp
  · intro k h1 h2
    rw [List.getElem_set]
    split
    next h => subst h; rw [List.getD_eq_getElem l 0 hi]
    next => rfl

/-- Swapping two in-range entries of a list yields a permutation of it. -/
theorem listSwap_perm (l : List Nat) (i j : Nat) (hi : i < l.length)
    (hj : j < l.length) : (listSwap l i j).Perm l := by
  rw [listSwap]
  by_cases hij : i = j
  · subst hij
    rw [set_getD_self l i hi, set_getD_self l i hi]
  · rw [List.perm_iff_count]
    intro a
    have hlenj : j < (l.set i (l.getD j 0)).length := by simpa using hj
    rw [List.count_set _ _ _ _ hlenj, List.count_set _ _ _ _ hi]
    have hgj : (l.set i (l.getD j 0))[j] = l[j] := by
      rw [List.getElem_set_ne (by omega)]
    have hdi : l.getD i 0 = l[i] := List.getD_eq_getElem l 0 hi
    have hdj : l.getD j 0 = l[j] := List.getD_eq_getElem l 0 hj
    rw [hgj, hdi, hdj]
    have hci : l[i] = a → 1 ≤ l.count a := by
      intro h
      exact List.count_pos_iff.mpr (h ▸ l.getElem_mem hi)
    have hcj : l[j] = a → 1 ≤ l.count a := by
      intro h
      exact List.count_pos_iff.mpr (h ▸ l.getElem_mem hj)
    by_cases e1 : l[i] = a <;> by_cases e2 : l[j] = a <;>
      simp [e1, e2] <;> omega

@[simp] theorem listSwap_length (l : List Nat) (i j : Nat) :
    (listSwap l i j).length = l.length := by
  simp [listSwap]

/-- The swaps of `detail::_plu` preserve the structural invariant. -/
theorem pluApplySwaps_inv {α : Type} [Zero α] [One α] (n : Nat) (st : PluSt α) (i p : Nat)
    (hi : i ≤ p) (hp : p < n) (hinv : PluInv n st) :
    PluInv n (pluApplySwaps st i p) := by
  obtain ⟨h1, h2, h3, h4, h5, h6, h7, h8⟩ := hinv
  refine ⟨by simp [pluApplySwaps, h1], ?_, h3, h4, ?_, ?_, h7, h8⟩
  · exact (listSwap_perm st.P i p (by omega) (by omega)).trans h2
  · intro q
    show (if q < i then
        if q = i then st.L.entry p q else if q = p then st.L.entry i q
        else st.L.entry q q
      else st.L.entry q q) = 1
    by_cases hq : q < i
    · rw [if_pos hq, if_neg (by omega), if_neg (by omega)]
      exact h5 q
    · rw [if_neg hq]
      exact h5 q
  · intro q r hqr
    show (if r < i then
        if q = i then st.L.entry p r else if q = p then st.L.entry i r
        else st.L.entry q r
      else st.L.entry q r) = 0
    by_cases hr : r < i
    · rw [if_pos hr]
      by_cases hqi : q = i
      · rw [if_pos hqi]
        exact h6 p r (by omega)
      · rw [if_neg hqi]
        by_cases hqp : q = p
        · rw [if_pos hqp]
          exact h6 i r (by omega)
        · rw [if_neg hqp]
          exact h6 q r hqr
    · rw [if_neg hr]
      exact h6 q r hqr

/-- One panel column of `detail::_plu` preserves the structural invariant
whenever it succeeds. -/
theorem pluPanelCol_inv {α : Type} [LinearOrderedField α] (n block_end i : Nat)
    (st st' : PluSt α) (hin : i < n)
    (hrun : pluPanelCol n block_end st i = .ok st') (hinv : PluInv n st) :
    PluInv n st' := by
  simp only [pluPanelCol] at hrun
  by_cases hclose : is_close (findPivot st.U n i).1 0 EPS9 = true
  · rw [if_pos hclose] at hrun
    exact absurd hrun (by simp)
  · rw [if_neg hclose] at hrun
    rw [Except.ok.injEq] at hrun
    subst hrun
    obtain ⟨hp1, hp2, _, _⟩ := findPivot_spec st.U n i hin
    have hst1 : PluInv n (if (findPivot st.U n i).2 ≠ i then
        pluApplySwaps st i (findPivot st.U n i).2 else st) := by
      by_cases hne : (findPivot st.U n i).2 ≠ i
      · rw [if_pos hne]
        exact pluApplySwaps_inv n st i _ hp1 hp2 hinv
      · rw [if_neg hne]
        exact hinv
    apply forRange_pres (PluInv n) (i + 1) n _ _ hst1
    rintro t j hj1 hj2 ⟨t1, t2, t3, t4, t5, t6, t7, t8⟩
    refine ⟨t1, t2, by simp [t3], by simp [t4], ?_, ?_, ?_, ?_⟩
    · intro q
      rw [Mat.entry_set_ne _ _ _ _ _ _ (by omega)]
      exact t5 q
    · intro q r hqr
      rw [Mat.entry_set_ne _ _ _ _ _ _ (by omega)]
      exact t6 q r hqr
    · show (forRange (i + 1) block_end _ t.U).rows = n
      exact forRange_pres (fun (U2 : Mat α) => U2.rows = n) (i + 1) block_end _ t.U t7
        (fun U2 k _ _ hU => by simp [hU])
    · show (forRange (i + 1) block_end _ t.U).cols = n
      exact forRange_pres (fun (U2 : Mat α) => U2.cols = n) (i + 1) block_end _ t.U t8
        (fun U2 k _ _ hU => by simp [hU])

/-- `pluTriSolve` and `pluTrailUpdate` only rewrite entries of the working
matrix; its dimensions are preserved. -/
theorem pluTrail_dims {α : Type} [LinearOrderedField α] (L : Mat α)
    (ib block_end n : Nat) (U : Mat α) :
    (pluTrailUpdate L ib block_end n (pluTriSolve L ib block_end n U)).rows = U.rows ∧
    (pluTrailUpdate L ib block_end n (pluTriSolve L ib block_end n U)).cols = U.cols := by
  have hsolve : (pluTriSolve L ib block_end n U).rows = U.rows ∧
      (pluTriSolve L ib block_end n U).cols = U.cols := by
    rw [pluTriSolve]
    apply forRange_pres
      (fun (V : Mat α) => V.rows = U.rows ∧ V.cols = U.cols) _ _ _ _ ⟨rfl, rfl⟩
    intro t j _ _ hU
    apply forRange_pres (fun (V : Mat α) => V.rows = U.rows ∧ V.cols = U.cols) _ _ _ _ hU
    intro t' i' _ _ hU'
    simpa using hU'
  rw [pluTrailUpdate]
  apply forRange_pres
    (fun (V : Mat α) => V.rows = U.rows ∧ V.cols = U.cols) _ _ _ _ hsolve
  intro t j _ _ hU
  apply forRange_pres (fun (V : Mat α) => V.rows = U.rows ∧ V.cols = U.cols) _ _ _ _ hU
  intro t' k _ _ hU'
  by_cases hcl : is_close (L.entry j k) 0 EPS9 = true
  · simpa [hcl] using hU'
  · simp only [hcl]
    simp only [Bool.false_eq_true, if_false]
    apply forRange_pres (fun (V : Mat α) => V.rows = U.rows ∧ V.cols = U.cols) _ _ _ _ hU'
    intro t'' j' _ _ hU''
    simpa using hU''

/-- One block of `detail::_plu` preserves the structural invariant whenever
it succeeds. -/
theorem pluBlockStep_inv {α : Type} [LinearOrderedField α] (n ib : Nat)
    (st st' : PluSt α) (hib : ib < n) (hrun : pluBlockStep n st ib = .ok st')
    (hinv : PluInv n st) : PluInv n st' := by
  rw [pluBlockStep] at hrun
  cases hpanel : forRangeM ib (min (min (ib + BLOCK_SIZE) n) (n - 1))
      (pluPanelCol n (min (ib + BLOCK_SIZE) n)) st with
  | error e =>
    rw [hpanel] at hrun
    exact absurd hrun (by simp)
  | ok st1 =>
    rw [hpanel] at hrun
    rw [Except.ok.injEq] at hrun
    subst hrun
    have hst1 : PluInv n st1 :=
      forRangeM_ok_inv (fun t _ => PluInv n t) ib
        (min (min (ib + BLOCK_SIZE) n) (n - 1)) _ st st1 (by omega) hinv
        (fun t j t' h1 h2 hP hok => pluPanelCol_inv n _ j t t' (by omega) hok hP)
        hpanel
    by_cases hbe : min (ib + BLOCK_SIZE) n < n
    · rw [if_pos hbe]
      obtain ⟨t1, t2, t3, t4, t5, t6, t7, t8⟩ := hst1
      obtain ⟨hd1, hd2⟩ := pluTrail_dims st1.L ib (min (ib + BLOCK_SIZE) n) n st1.U
      exact ⟨t1, t2, t3, t4, t5, t6, by rw [hd1, t7], by rw [hd2, t8]⟩
    · rw [if_neg hbe]
      exact hst1

/-- Success-propagation rule for `forStepM` with an index-free invariant. -/
theorem forStepM_ok_pres {σ ε : Type} (P : σ → Prop) (lo hi step : Nat)
    (f : σ → Nat → Except ε σ) (s s' : σ) (hinit : P s)
    (hstep : ∀ t j t', lo ≤ j → j < hi → P t → f t j = .ok t' → P t')
    (hrun : forStepM lo hi step f s = .ok s') : P s' := by
  by_cases h : lo < hi ∧ 0 < step
  · rw [forStepM_step lo hi step f s h] at hrun
    cases hf : f s lo with
    | error e => rw [hf] at hrun; exact absurd hrun (by simp)
    | ok t =>
      rw [hf] at hrun
      exact forStepM_ok_pres P (lo + step) hi step f t s'
        (hstep s lo t le_rfl h.1 hinit hf)
        (fun t₁ j t₂ hj hj' hP hOk => hstep t₁ j t₂ (by omega) hj' hP hOk) hrun
  · rw [forStepM_stop lo hi step f s h] at hrun
    cases hrun
    exact hinit
termination_by hi - lo
decreasing_by omega

/-- Structural specification of a successful `detail::_plu` run on a
non-empty matrix: `P` is a length-`n` permutation of `0..n-1`, `L` is
`n × n` unit-lower-triangular, `U` is `n × n` upper-triangular. -/
theorem plu_ok_struct {α : Type} [LinearOrderedField α] (A : Mat α)
    (P : List Nat) (L U : Mat α) (hn : 0 < A.rows)
    (hrun : plu A = .ok (P, L, U)) :
    (P.length = A.rows ∧ P.Perm (List.range A.rows)) ∧
    (L.rows = A.rows ∧ L.cols = A.rows ∧
      (∀ i, i < A.rows → L.entry i i = 1) ∧
      (∀ i j, i < j → j < A.rows → L.entry i j = 0)) ∧
    (U.rows = A.rows ∧ U.cols = A.rows ∧
      (∀ i j, j < i → i < A.rows → U.entry i j = 0)) := by
  rw [plu] at hrun
  by_cases hsq : A.is_square = false
  · rw [if_pos hsq] at hrun
    exact absurd hrun (by simp)
  · rw [if_neg hsq] at hrun
    have hsq0 : A.rows = A.cols := by
      have h : A.is_square = true := by simpa using hsq
      simpa [Mat.is_square] using h
    have hsq' : A.cols = A.rows := hsq0.symm
    rw [if_neg (by omega)] at hrun
    cases hloop : forStepM 0 A.rows BLOCK_SIZE (pluBlockStep A.rows)
        ⟨List.range A.rows, identity_matrix A.rows, A⟩ with
    | error e =>
      rw [hloop] at hrun
      exact absurd hrun (by simp)
    | ok st =>
      rw [hloop] at hrun
      have hrun' : (if is_close (st.U.entry (A.rows - 1) (A.rows - 1)) 0 EPS9 = true then
          (Except.error (CppError.runtime_error "Matrix is singular; pivot is near zero.") :
            Except CppError (List Nat × Mat α × Mat α))
        else Except.ok (st.P, st.L, extractU A.rows st.U)) = Except.ok (P, L, U) := hrun
      clear hrun
      have hinv : PluInv A.rows st := by
        refine forStepM_ok_pres (PluInv A.rows) 0 A.rows BLOCK_SIZE _ _ st
          ⟨by simp, List.Perm.refl _, rfl, rfl, ?_, ?_, rfl, hsq'⟩
          (fun t j t' h1 h2 hP hok => pluBlockStep_inv A.rows j t t' h2 hok hP) hloop
        · intro i
          simp [identity_matrix]
        · intro i j hij
          simp [identity_matrix]
          omega
      by_cases hsing : is_close (st.U.entry (A.rows - 1) (A.rows - 1)) 0 EPS9 = true
      · rw [if_pos hsing] at hrun'
        exact absurd hrun' (by simp)
      · rw [if_neg hsing] at hrun'
        rw [Except.ok.injEq] at hrun'
        obtain ⟨i1, i2, i3, i4, i5, i6, i7, i8⟩ := hinv
        obtain ⟨hP, hL, hU⟩ : st.P = P ∧ st.L = L ∧ extractU A.rows st.U = U := by
          have h1 := congrArg Prod.fst hrun'
          have h2 := congrArg (fun t => t.2.1) hrun'
          have h3 := congrArg (fun t => t.2.2) hrun'
          exact ⟨h1, h2, h3⟩
        subst hP hL
        refine ⟨⟨i1, i2⟩, ⟨i3, i4, fun i _ => i5 i, fun i j hij _ => i6 i j hij⟩, ?_⟩
        rw [← hU]
        refine ⟨rfl, rfl, fun i j hji _ => ?_⟩
        show (if i ≤ j then st.U.entry i j else 0) = 0
        rw [if_neg (by omega)]

/-- A non-square input makes `detail::_plu` throw the squareness
`std::invalid_argument` immediately. -/
theorem plu_not_square {α : Type} [LinearOrderedField α] (A : Mat α)
    (hsq : A.is_square = false) :
    plu A = .error (.invalid_argument "Matrix must be square for PLU decomposition!") := by
  rw [plu, if_pos hsq]

/-- The only error one panel column of `detail::_plu` can produce is the
near-zero-pivot `std::runtime_error`. -/
theorem pluPanelCol_error_eq {α : Type} [LinearOrderedField α]
    (n block_end i : Nat) (st : PluSt α) (e : CppError)
    (hrun : pluPanelCol n block_end st i = .error e) :
    e = .runtime_error "Matrix is singular; pivot is near zero." := by
  simp only [pluPanelCol] at hrun
  split at hrun
  · exact (Except.error.inj hrun).symm
  · exact absurd hrun (by simp)

/-- The only error one block of `detail::_plu` can produce is the
near-zero-pivot `std::runtime_error`. -/
theorem pluBlockStep_error_eq {α : Type} [LinearOrderedField α] (n ib : Nat)
    (st : PluSt α) (e : CppError) (hrun : pluBlockStep n st ib = .error e) :
    e = .runtime_error "Matrix is singular; pivot is near zero." := by
  rw [pluBlockStep] at hrun
  cases hpanel : forRangeM ib (min (min (ib + BLOCK_SIZE) n) (n - 1))
      (pluPanelCol n (min (ib + BLOCK_SIZE) n)) st with
  | error e' =>
    rw [hpanel] at hrun
    cases hrun
    obtain ⟨t, j, _, _, hf⟩ := forRangeM_error_src _ _ _ _ _ hpanel
    exact pluPanelCol_error_eq n _ j t e hf
  | ok st1 =>
    rw [hpanel] at hrun
    exact absurd hrun (by simp)

/-- On a square input, every error `detail::_plu` throws is the
near-zero-pivot `std::runtime_error`. -/
theorem plu_square_error_eq {α : Type} [LinearOrderedField α] (A : Mat α)
    (e : CppError) (hsq : A.is_square = true)
    (hrun : plu A = .error e) :
    e = .runtime_error "Matrix is singular; pivot is near zero." := by
  rw [plu, if_neg (by simp [hsq])] at hrun
  by_cases hn : A.rows = 0
  · rw [if_pos hn] at hrun
    exact absurd hrun (by simp)
  · rw [if_neg hn] at hrun
    cases hloop : forStepM 0 A.rows BLOCK_SIZE (pluBlockStep A.rows)
        ⟨List.range A.rows, identity_matrix A.rows, A⟩ with
    | error e' =>
      rw [hloop] at hrun
      cases hrun
      obtain ⟨t, j, _, _, hf⟩ := forStepM_error_src _ _ _ _ _ _ hloop
      exact pluBlockStep_error_eq A.rows j t e hf
    | ok st =>
      rw [hloop] at hrun
      have hrun' : (if is_close (st.U.entry (A.rows - 1) (A.rows - 1)) 0 EPS9 = true then
          (Except.error (CppError.runtime_error "Matrix is singular; pivot is near zero.") :
            Except CppError (List Nat × Mat α × Mat α))
        else Except.ok (st.P, st.L, extractU A.rows st.U)) = Except.error e := hrun
      by_cases hsing : is_close (st.U.entry (A.rows - 1) (A.rows - 1)) 0 EPS9 = true
      · rw [if_pos hsing] at hrun'
        exact (Except.error.inj hrun').symm
      · rw [if_neg hsing] at hrun'
        exact absurd hrun' (by simp)

theorem getD_set_self (l : List Nat) (i a : Nat) (h : i < l.length) :
    (l.set i a).getD i 0 = a := by
  rw [List.getD_eq_getElem?_getD, List.getElem?_set_self (by omega)]
  rfl

theorem getD_set_ne (l : List Nat) (i j a : Nat) (hne : j ≠ i) :
    (l.set i a).getD j 0 = l.getD j 0 := by
  rw [List.getD_eq_getElem?_getD, List.getElem?_set_ne (by omega),
    ← List.getD_eq_getElem?_getD]

/-- Entrywise specification of the swaps applied by `detail::_plu` when the
pivot row `p` differs from `i`: the permutation entries `i` and `p` are
exchanged, the whole rows `i` and `p` of the working matrix are exchanged,
and rows `i` and `p` of `L` are exchanged in the first `i` columns only. -/
theorem pluApplySwaps_spec {α : Type} (st : PluSt α) (i p : Nat)
    (hi : i < st.P.length) (hp : p < st.P.length) :
    ((pluApplySwaps st i p).P.getD i 0 = st.P.getD p 0 ∧
      (pluApplySwaps st i p).P.getD p 0 = st.P.getD i 0 ∧
      ∀ q, q ≠ i → q ≠ p → (pluApplySwaps st i p).P.getD q 0 = st.P.getD q 0) ∧
    (∀ c, (pluApplySwaps st i p).U.entry i c = st.U.entry p c ∧
      (pluApplySwaps st i p).U.entry p c = st.U.entry i c ∧
      ∀ r, r ≠ i → r ≠ p → (pluApplySwaps st i p).U.entry r c = st.U.entry r c) ∧
    (∀ c, c < i → (pluApplySwaps st i p).L.entry i c = st.L.entry p c ∧
      (pluApplySwaps st i p).L.entry p c = st.L.entry i c ∧
      ∀ r, r ≠ i → r ≠ p → (pluApplySwaps st i p).L.entry r c = st.L.entry r c) ∧
    (∀ r c, i ≤ c → (pluApplySwaps st i p).L.entry r c = st.L.entry r c) := by
  by_cases hip : i = p
  · subst hip
    refine ⟨⟨?_, ?_, ?_⟩, ?_, ?_, ?_⟩
    · show (listSwap st.P i i).getD i 0 = st.P.getD i 0
      rw [listSwap, getD_set_self _ _ _ (by simpa using hi)]
    · show (listSwap st.P i i).getD i 0 = st.P.getD i 0
      rw [listSwap, getD_set_self _ _ _ (by simpa using hi)]
    · intro q hq _
      show (listSwap st.P i i).getD q 0 = st.P.getD q 0
      rw [listSwap, getD_set_ne _ _ _ _ hq, getD_set_ne _ _ _ _ hq]
    · intro c
      refine ⟨?_, ?_, fun r hr _ => ?_⟩
      · show (if i = i then st.U.entry i c else _) = st.U.entry i c
        rw [if_pos rfl]
      · show (if i = i then st.U.entry i c else _) = st.U.entry i c
        rw [if_pos rfl]
      · show (if r = i then _ else if r = i then _ else st.U.entry r c) = st.U.entry r c
        rw [if_neg hr, if_neg hr]
    · intro c hc
      refine ⟨?_, ?_, fun r hr _ => ?_⟩
      · show (if c < i then if i = i then st.L.entry i c else _ else st.L.entry i c) =
          st.L.entry i c
        rw [if_pos hc, if_pos rfl]
      · show (if c < i then if i = i then st.L.entry i c else _ else st.L.entry i c) =
          st.L.entry i c
        rw [if_pos hc, if_pos rfl]
      · show (if c < i then if r = i then _ else if r = i then _ else st.L.entry r c
          else st.L.entry r c) = st.L.entry r c
        rw [if_pos hc, if_neg hr, if_neg hr]
    · intro r c hc
      show (if c < i then _ else st.L.entry r c) = st.L.entry r c
      rw [if_neg (by omega)]
  · refine ⟨⟨?_, ?_, ?_⟩, ?_, ?_, ?_⟩
    · show (listSwap st.P i p).getD i 0 = st.P.getD p 0
      rw [listSwap, getD_set_ne _ _ _ _ (by omega), getD_set_self _ _ _ (by simpa using hi)]
    · show (listSwap st.P i p).getD p 0 = st.P.getD i 0
      rw [listSwap, getD_set_self _ _ _ (by simpa using hp)]
    · intro q hqi hqp
      show (listSwap st.P i p).getD q 0 = st.P.getD q 0
      rw [listSwap, getD_set_ne _ _ _ _ hqp, getD_set_ne _ _ _ _ hqi]
    · intro c
      refine ⟨?_, ?_, fun r hri hrp => ?_⟩
      · show (if i = i then st.U.entry p c else _) = st.U.entry p c
        rw [if_pos rfl]
      · show (if p = i then st.U.entry p c else if p = p then st.U.entry i c
          else st.U.entry p c) = st.U.entry i c
        rw [if_neg (by omega), if_pos rfl]
      · show (if r = i then _ else if r = p then _ else st.U.entry r c) = st.U.entry r c
        rw [if_neg hri, if_neg hrp]
    · intro c hc
      refine ⟨?_, ?_, fun r hri hrp => ?_⟩
      · show (if c < i then if i = i then st.L.entry p c else _ else _) = st.L.entry p c
        rw [if_pos hc, if_pos rfl]
      · show (if c < i then if p = i then st.L.entry p c else if p = p then st.L.entry i c
          else st.L.entry p c else st.L.entry p c) = st.L.entry i c
        rw [if_pos hc, if_neg (by omega), if_pos rfl]
      · show (if c < i then if r = i then _ else if r = p then _ else st.L.entry r c
          else st.L.entry r c) = st.L.entry r c
        by_cases h : c < i
        · rw [if_pos h, if_neg hri, if_neg hrp]
        · rw [if_neg h]
    · intro r c hc
      show (if c < i then _ else st.L.entry r c) = st.L.entry r c
      rw [if_neg (by omega)]

/-- `householder_column` on a column whose sub-diagonal sum of squares is
zero: `tau = 0` and the matrix is returned untouched. -/
theorem householder_column_sigma_zero {α : Type} [LinearOrderedField α]
    (sqrt : α → α) (A : Mat α) (j : Nat) (hj : j < A.rows)
    (hsigma : sumRange (j + 1) A.rows (fun i => A.entry i j * A.entry i j) = 0) :
    householder_column sqrt A j = .ok (0, A) := by
  rw [householder_column]
  rw [if_neg (by omega), if_pos hsigma]

/-- `qrStep` on a column whose sub-diagonal sum of squares is zero: the
working matrix is unchanged and only `tau[j] = 0` is recorded. -/
theorem qrStep_sigma_zero {α : Type} [LinearOrderedField α] (sqrt : α → α)
    (m n j : Nat) (W : Mat α) (tau : List α) (hm : W.rows = m) (hj : j < m)
    (hsigma : sumRange (j + 1) m (fun i => W.entry i j * W.entry i j) = 0) :
    qrStep sqrt m n (W, tau) j = .ok (W, tau.set j 0) := by
  rw [qrStep]
  rw [householder_column_sigma_zero sqrt W j (by omega) (by rw [hm]; exact hsigma)]
  simp

/-- `householder_column` keeps the matrix dimensions. -/
theorem householder_column_dims {α : Type} [LinearOrderedField α]
    (sqrt : α → α) (A A' : Mat α) (j : Nat) (t : α)
    (hrun : householder_column sqrt A j = .ok (t, A')) :
    A'.rows = A.rows ∧ A'.cols = A.cols := by
  simp only [householder_column] at hrun
  split at hrun
  · exact absurd hrun (by simp)
  · split at hrun
    · rw [Except.ok.injEq, Prod.mk.injEq] at hrun
      rw [← hrun.2]
      exact ⟨rfl, rfl⟩
    · rw [Except.ok.injEq, Prod.mk.injEq] at hrun
      rw [← hrun.2]
      constructor
      · show (Mat.set _ _ _ _).rows = A.rows
        rw [Mat.rows_set]
        exact forRange_pres (fun (V : Mat α) => V.rows = A.rows) _ _ _ _ rfl
          (fun t' i _ _ hV => by simp [hV])
      · show (Mat.set _ _ _ _).cols = A.cols
        rw [Mat.cols_set]
        exact forRange_pres (fun (V : Mat α) => V.cols = A.cols) _ _ _ _ rfl
          (fun t' i _ _ hV => by simp [hV])

/-- On a non-empty matrix the QR reflector loop never throws: every visited
column index is a valid row index, which is all `householder_column`
checks. -/
theorem qr_loop_ok {α : Type} [LinearOrderedField α] (sqrt : α → α)
    (A : Mat α) :
    ∃ wt, forRangeM 0 (min A.rows A.cols) (qrStep sqrt A.rows A.cols)
      (A, List.replicate (min A.rows A.cols) 0) = .ok wt := by
  have h := forRangeM_inv (fun (st : Mat α × List α) _ => st.1.rows = A.rows)
    0 (min A.rows A.cols) (qrStep sqrt A.rows A.cols)
    (A, List.replicate (min A.rows A.cols) 0) (by omega) rfl ?_
  · obtain ⟨wt, hrun, _⟩ := h
    exact ⟨wt, hrun⟩
  · intro st j h0 hj hP
    cases hh : householder_column sqrt st.1 j with
    | error e =>
      exfalso
      simp only [householder_column] at hh
      split at hh
      · next hge => omega
      · split at hh
        · exact absurd hh (by simp)
        · exact absurd hh (by simp)
    | ok ta =>
      obtain ⟨t, A1⟩ := ta
      obtain ⟨hd1, _⟩ := householder_column_dims sqrt st.1 A1 j t hh
      by_cases ht : t = 0
      · refine ⟨(A1, st.2.set j t), by simp [qrStep, hh, ht], by simpa [hP] using hd1⟩
      · by_cases hjn : j + 1 < A.cols
        · have hq : qrStep sqrt A.rows A.cols st j = .ok
              (kernels.ger A1 j (j + 1) (A.rows - j) (A.cols - (j + 1))
                (load_reflector A1 j).entry
                (kernels.gemv id id kernels.OP.Trans
                  (A1.view j (j + 1) (A.rows - j) (A.cols - (j + 1)))
                  ⟨A.rows - j, (load_reflector A1 j).entry⟩).entry (-t),
              st.2.set j t) := by
            simp only [qrStep, hh]
            rw [if_neg ht, if_pos hjn]
          exact ⟨_, hq, hd1.trans hP⟩
        · refine ⟨(A1, st.2.set j t), by simp [qrStep, hh, ht, hjn], by simpa [hP] using hd1⟩

/-- Error characterisation of `QR_decompostion`: the empty-input
`std::invalid_argument` is thrown exactly on empty input, and is the only
possible error — in particular no singularity error exists for QR. -/
theorem QR_error_iff {α : Type} [LinearOrderedField α] (sqrt : α → α)
    (A : Mat α) (full_Q full_R : Bool) :
    ((∃ e, QR_decompostion sqrt A full_Q full_R = .error e) ↔
      (A.rows = 0 ∨ A.cols = 0)) ∧
    (∀ e, QR_decompostion sqrt A full_Q full_R = .error e →
      e = .invalid_argument "Cannot perform QR decomposition on empty matrix!") := by
  by_cases hmn : A.rows = 0 ∨ A.cols = 0
  · constructor
    · refine ⟨fun _ => hmn, fun _ => ?_⟩
      rw [QR_decompostion, if_pos (by rcases hmn with h | h <;> simp [h])]
      exact ⟨_, rfl⟩
    · intro e hrun
      rw [QR_decompostion, if_pos (by rcases hmn with h | h <;> simp [h])] at hrun
      exact (Except.error.inj hrun).symm
  · push_neg at hmn
    obtain ⟨wt, hloop⟩ := qr_loop_ok sqrt A
    have hok : ∃ r, QR_decompostion sqrt A full_Q full_R = .ok r := by
      simp only [QR_decompostion, hloop]
      rw [if_neg (by simp [hmn.1, hmn.2])]
      exact ⟨_, rfl⟩
    obtain ⟨r, hok⟩ := hok
    constructor
    · constructor
      · rintro ⟨e, he⟩
        rw [hok] at he
        exact absurd he (by simp)
      · intro h
        exact absurd h (by omega)
    · intro e he
      rw [hok] at he
      exact absurd he (by simp)

/-! ### Kernel and constructor specifications -/

/-- Entrywise specification of the manual `gemv` paths. -/
theorem gemv_spec {T U R : Type} [AddCommMonoid R] [Mul R] (castT : T → R)
    (castU : U → R) (A : MView T) (x : VView U) :
    ((kernels.gemv castT castU kernels.OP.NoTrans A x).size = A.rows ∧
      (kernels.gemv castT castU kernels.OP.NoTrans A x).orient = Orient.C ∧
      ∀ i, (kernels.gemv castT castU kernels.OP.NoTrans A x).entry i =
        ∑ j in Finset.range A.cols, castT (A.entry i j) * castU (x.entry j)) ∧
    ((kernels.gemv castT castU kernels.OP.Trans A x).size = A.cols ∧
      (kernels.gemv castT castU kernels.OP.Trans A x).orient = Orient.R ∧
      ∀ j, (kernels.gemv castT castU kernels.OP.Trans A x).entry j =
        ∑ i in Finset.range A.rows, castU (x.entry i) * castT (A.entry i j)) := by
  refine ⟨⟨rfl, rfl, fun i => ?_⟩, ⟨rfl, rfl, fun j => ?_⟩⟩
  · show sumRange 0 A.cols _ = _
    rw [sumRange_zero_eq]
  · show sumRange 0 A.rows _ = _
    rw [sumRange_zero_eq]

/-- Error characterisation of `kernels::dot` as written: the size-mismatch
`std::invalid_argument` is thrown exactly when the sizes differ and is the
only possible error; when the sizes agree the portable build returns no
value (`()`). -/
theorem dot_spec {T U : Type} (x : VView T) (y : VView U) :
    (x.size ≠ y.size →
      kernels.dot x y =
        .error (.invalid_argument "Vectors must be of same size for dot product!")) ∧
    (x.size = y.size → kernels.dot x y = .ok ()) := by
  constructor
  · intro h
    rw [kernels.dot, if_pos h]
  · intro h
    rw [kernels.dot, if_neg (by omega)]

/-- Closed form of the local `result` accumulated by the manual fallback
loop of `kernels::dot`. -/
theorem dot_fallback_result_eq {T U R : Type} [AddCommMonoid R] [Mul R]
    (castT : T → R) (castU : U → R) (x : VView T) (y : VView U) :
    kernels.dot_fallback_result castT castU x y =
      ∑ i in Finset.range x.size, castT (x.entry i) * castU (y.entry i) := by
  rw [kernels.dot_fallback_result, sumRange_zero_eq]

/-- The `Matrix(rows, cols)` constructor fails exactly on a zero
dimension. -/
theorem create_error_iff (α : Type) [Zero α] (rows cols : Nat) :
    Mat.create α rows cols =
        .error (.invalid_argument "Matrix dimensions must be greater than zero.") ↔
      (rows = 0 ∨ cols = 0) := by
  rw [Mat.create]
  by_cases h : rows = 0 ∨ cols = 0
  · rw [if_pos (by rcases h with h | h <;> simp [h])]
    simp [h]
  · rw [if_neg (by push_neg at h; simp [h.1, h.2])]
    simp [h]

/-- The `Matrix(rows, cols, std::vector)` constructor also rejects zero
dimensions (before its size check). -/
theorem createFromVec_zero (α : Type) [Zero α] (rows cols : Nat) (data : List α)
    (h : rows = 0 ∨ cols = 0) :
    Mat.createFromVec α rows cols data =
      .error (.invalid_argument "Matrix dimensions must be greater than zero.") := by
  rw [Mat.createFromVec, if_pos (by rcases h with h | h <;> simp [h])]

theorem cholDiag_zero_col {α : Type} [LinearOrderedField α] (sqrt : α → α)
    (A : Mat α) : cholDiag sqrt A 0 = A.entry 0 0 := by
  simp [cholDiag]

/-- The recurrence only reads entries of `A` at indices below `N`:
matrices agreeing there have the same `cholBuild` columns up to `N`. -/
theorem cholBuild_congr {α : Type} [LinearOrderedField α] (sqrt : α → α)
    (A B : Mat α) (N : Nat)
    (h : ∀ r c, r < N → c < N → A.entry r c = B.entry r c) :
    ∀ j, j ≤ N → ∀ r c, r < N → cholBuild sqrt A j r c = cholBuild sqrt B j r c := by
  intro j
  induction j with
  | zero => intro _ r c _; rfl
  | succ m ih =>
    intro hm r c hr
    have hmN : m < N := by omega
    by_cases hc : c = m
    · subst hc
      show cholBuild sqrt A (c + 1) r c = cholBuild sqrt B (c + 1) r c
      rw [cholBuild, cholBuild]
      have hsums : ∀ r', r' < N →
          (∑ k in Finset.range c, cholBuild sqrt A c r' k * cholBuild sqrt A c c k) =
          ∑ k in Finset.range c, cholBuild sqrt B c r' k * cholBuild sqrt B c c k := by
        intro r' hr'
        refine Finset.sum_congr rfl (fun k hk => ?_)
        rw [ih (by omega) r' k hr', ih (by omega) c k hmN]
      simp only [if_pos rfl]
      rw [h c c hmN hmN, h r c hr hmN, hsums r hr, hsums c hmN]
      simp
    · show cholBuild sqrt A (m + 1) r c = cholBuild sqrt B (m + 1) r c
      rw [cholBuild_succ_ne sqrt A m r c hc, cholBuild_succ_ne sqrt B m r c hc]
      exact ih (by omega) r c hr

theorem cholL_congr {α : Type} [LinearOrderedField α] (sqrt : α → α)
    (A B : Mat α) (N : Nat)
    (h : ∀ r c, r < N → c < N → A.entry r c = B.entry r c)
    (i j : Nat) (hi : i < N) (hj : j < N) :
    cholL sqrt A i j = cholL sqrt B i j :=
  cholBuild_congr sqrt A B N h (j + 1) (by omega) i j hi

theorem cholDiag_congr {α : Type} [LinearOrderedField α] (sqrt : α → α)
    (A B : Mat α) (N : Nat)
    (h : ∀ r c, r < N → c < N → A.entry r c = B.entry r c)
    (j : Nat) (hj : j < N) :
    cholDiag sqrt A j = cholDiag sqrt B j := by
  rw [cholDiag, cholDiag, h j j hj hj]
  congr 1
  refine Finset.sum_congr rfl (fun k hk => ?_)
  rw [Finset.mem_range] at hk
  rw [cholL_congr sqrt A B N h j k hj (by omega)]

theorem cholL_col0 {α : Type} [LinearOrderedField α] (sqrt : α → α) (A : Mat α)
    (r : Nat) : cholL sqrt A (r + 1) 0 = A.entry (r + 1) 0 / sqrt (A.entry 0 0) := by
  rw [cholL_below sqrt A (r + 1) 0 (by omega), cholDiag_zero_col]
  simp

/-- Index shift: the recurrence on `A` below the first column agrees with
the recurrence on the Schur complement of `A`. -/
theorem chol_shift {α : Type} [LinearOrderedField α] (sqrt : α → α) (A : Mat α)
    (hsq : ∀ x : α, 0 < x → sqrt x * sqrt x = x)
    (hsym : ∀ i j, A.entry i j = A.entry j i)
    (h00 : 0 < A.entry 0 0) (c : Nat) :
    cholDiag sqrt A (c + 1) = cholDiag sqrt (schur A) c ∧
      ∀ i, cholL sqrt A (i + 1) (c + 1) = cholL sqrt (schur A) i c := by
  induction c using Nat.strong_induction_on with
  | _ c IH =>
    have hprod0 : ∀ r r', cholL sqrt A (r + 1) 0 * cholL sqrt A (r' + 1) 0 =
        A.entry (r + 1) 0 * A.entry (r' + 1) 0 / A.entry 0 0 := by
      intro r r'
      rw [cholL_col0, cholL_col0, div_mul_div_comm, hsq _ h00]
    have hd : cholDiag sqrt A (c + 1) = cholDiag sqrt (schur A) c := by
      rw [cholDiag, cholDiag, Finset.sum_range_succ']
      have h1 : ∀ k ∈ Finset.range c,
          cholL sqrt A (c + 1) (k + 1) * cholL sqrt A (c + 1) (k + 1) =
          cholL sqrt (schur A) c k * cholL sqrt (schur A) c k := by
        intro k hk
        rw [Finset.mem_range] at hk
        rw [(IH k hk).2 c]
      rw [Finset.sum_congr rfl h1, hprod0 c c]
      show A.entry (c + 1) (c + 1) - (_ + A.entry (c + 1) 0 * A.entry (c + 1) 0 / A.entry 0 0) =
        (A.entry (c + 1) (c + 1) - A.entry (c + 1) 0 * A.entry 0 (c + 1) / A.entry 0 0) - _
      rw [hsym 0 (c + 1)]
      ring
    refine ⟨hd, fun i => ?_⟩
    rcases Nat.lt_trichotomy i c with hic | hic | hic
    · rw [cholL_above sqrt A (i + 1) (c + 1) (by omega),
        cholL_above sqrt (schur A) i c hic]
    · subst hic
      rw [cholL_diag, cholL_diag, hd]
    · rw [cholL_below sqrt A (i + 1) (c + 1) (by omega),
        cholL_below sqrt (schur A) i c hic, hd]
      congr 1
      rw [Finset.sum_range_succ']
      have h1 : ∀ k ∈ Finset.range c,
          cholL sqrt A (i + 1) (k + 1) * cholL sqrt A (c + 1) (k + 1) =
          cholL sqrt (schur A) i k * cholL sqrt (schur A) c k := by
        intro k hk
        rw [Finset.mem_range] at hk
        rw [(IH k hk).2 i, (IH k hk).2 c]
      rw [Finset.sum_congr rfl h1, hprod0 i c]
      show A.entry (i + 1) (c + 1) - (_ + A.entry (i + 1) 0 * A.entry (c + 1) 0 / A.entry 0 0) =
        (A.entry (i + 1) (c + 1) - A.entry (i + 1) 0 * A.entry 0 (c + 1) / A.entry 0 0) - _
      rw [hsym 0 (c + 1)]
      ring

/-- Positive definiteness passes to the Schur complement (test-vector
argument). -/
theorem schur_pd {α : Type} [LinearOrderedField α] (n : Nat) (A : Mat α)
    (hsym : ∀ i j, A.entry i j = A.entry j i) (h00 : 0 < A.entry 0 0)
    (hPD : ∀ x : Nat → α, (∃ i, i < n + 1 ∧ x i ≠ 0) →
      0 < ∑ i in Finset.range (n + 1), ∑ j in Finset.range (n + 1),
        x i * A.entry i j * x j) :
    ∀ y : Nat → α, (∃ i, i < n ∧ y i ≠ 0) →
      0 < ∑ i in Finset.range n, ∑ j in Finset.range n,
        y i * (schur A).entry i j * y j := by
  rintro y ⟨i₀, hi₀, hy₀⟩
  have hA00 : A.entry 0 0 ≠ 0 := ne_of_gt h00
  set t := ∑ k in Finset.range n, A.entry 0 (k + 1) * y k with ht
  set x : Nat → α := fun i => if i = 0 then -t / A.entry 0 0 else y (i - 1) with hxdef
  have hxk : ∀ k, x (k + 1) = y k := by intro k; simp [hxdef]
  have hx0 : x 0 = -t / A.entry 0 0 := by simp [hxdef]
  have hrow0 : (∑ i in Finset.range n, y i * A.entry (i + 1) 0) = t := by
    rw [ht]
    refine Finset.sum_congr rfl (fun i _ => ?_)
    rw [hsym (i + 1) 0, mul_comm]
  have key : (∑ i in Finset.range (n + 1), ∑ j in Finset.range (n + 1),
      x i * A.entry i j * x j) =
      ∑ i in Finset.range n, ∑ j in Finset.range n,
        y i * (schur A).entry i j * y j := by
    have hinner : ∀ i, (∑ j in Finset.range (n + 1), x i * A.entry i j * x j) =
        (∑ j in Finset.range n, x i * A.entry i (j + 1) * y j) +
          x i * A.entry i 0 * x 0 := by
      intro i
      rw [Finset.sum_range_succ']
      congr 1
    rw [Finset.sum_range_succ']
    simp only [hinner]
    -- outer split: ∑_{i<n} (T i + y i * A(i+1)0 * c) + (∑_j c * A0(j+1) y j + c*A00*c)
    rw [Finset.sum_add_distrib]
    have e1 : (∑ i in Finset.range n, x (i + 1) * A.entry (i + 1) 0 * x 0) =
        t * (-t / A.entry 0 0) := by
      rw [← Finset.sum_mul, ← hx0]
      congr 1
    have e2 : (∑ j in Finset.range n, x 0 * A.entry 0 (j + 1) * y j) =
        (-t / A.entry 0 0) * t := by
      rw [hx0, ht]
      rw [Finset.mul_sum]
      exact Finset.sum_congr rfl (fun j _ => by ring)
    have e3 : ∀ i, (∑ j in Finset.range n, x (i + 1) * A.entry (i + 1) (j + 1) * y j) =
        ∑ j in Finset.range n, y i * A.entry (i + 1) (j + 1) * y j := by
      intro i
      exact Finset.sum_congr rfl (fun j _ => by rw [hxk i])
    rw [e1, e2, hx0]
    rw [Finset.sum_congr rfl (fun i _ => e3 i)]
    -- RHS: expand schur entries
    have hRHS : (∑ i in Finset.range n, ∑ j in Finset.range n,
        y i * (schur A).entry i j * y j) =
        (∑ i in Finset.range n, ∑ j in Finset.range n,
          y i * A.entry (i + 1) (j + 1) * y j) - t * t / A.entry 0 0 := by
      have hterm : ∀ i j, y i * (schur A).entry i j * y j =
          y i * A.entry (i + 1) (j + 1) * y j -
            (y i * A.entry (i + 1) 0) * (A.entry 0 (j + 1) * y j) / A.entry 0 0 := by
        intro i j
        show y i * (A.entry (i + 1) (j + 1) -
          A.entry (i + 1) 0 * A.entry 0 (j + 1) / A.entry 0 0) * y j = _
        field_simp
        ring
      simp only [hterm]
      rw [Finset.sum_congr rfl (fun i _ => Finset.sum_sub_distrib)]
      rw [Finset.sum_sub_distrib]
      congr 1
      have e4 : ∀ i, (∑ j in Finset.range n,
          (y i * A.entry (i + 1) 0) * (A.entry 0 (j + 1) * y j) / A.entry 0 0) =
          (y i * A.entry (i + 1) 0) * t / A.entry 0 0 := by
        intro i
        rw [← Finset.sum_div]
        congr 1
        rw [← Finset.mul_sum]
      rw [Finset.sum_congr rfl (fun i _ => e4 i)]
      rw [← Finset.sum_div, ← Finset.sum_mul, hrow0]
    rw [hRHS]
    field_simp
    ring
  rw [← key]
  exact hPD x ⟨i₀ + 1, by omega, by rw [hxk]; exact hy₀⟩

/-- Positive definiteness forces every Cholesky pivot to be positive
(induction along Schur complements). -/
theorem pd_pivots {α : Type} [LinearOrderedField α] (sqrt : α → α)
    (hsq : ∀ x : α, 0 < x → sqrt x * sqrt x = x) :
    ∀ n (A : Mat α), (∀ i j, A.entry i j = A.entry j i) →
      (∀ x : Nat → α, (∃ i, i < n ∧ x i ≠ 0) →
        0 < ∑ i in Finset.range n, ∑ j in Finset.range n, x i * A.entry i j * x j) →
      ∀ j, j < n → 0 < cholDiag sqrt A j := by
  intro n
  induction n with
  | zero => intro A _ _ j hj; omega
  | succ m ih =>
    intro A hsym hPD j hj
    have h00 : 0 < A.entry 0 0 := by
      have := hPD (fun i => if i = 0 then 1 else 0)
        ⟨0, by omega, by simp⟩
      calc (0 : α) < ∑ i in Finset.range (m + 1), ∑ j in Finset.range (m + 1),
            (if i = 0 then (1 : α) else 0) * A.entry i j *
              (if j = 0 then (1 : α) else 0) := this
        _ = A.entry 0 0 := by
          rw [Finset.sum_eq_single 0]
          · rw [Finset.sum_eq_single 0]
            · simp
            · intro b _ hb
              simp [hb]
            · intro h
              exact absurd (Finset.mem_range.mpr (by omega)) h
          · intro b _ hb
            simp [hb]
          · intro h
            exact absurd (Finset.mem_range.mpr (by omega)) h
    cases j with
    | zero => rw [cholDiag_zero_col]; exact h00
    | succ j' =>
      have hshift := chol_shift sqrt A hsq hsym h00 j'
      rw [hshift.1]
      refine ih (schur A) ?_ ?_ j' (by omega)
      · intro i j
        show A.entry (i + 1) (j + 1) - A.entry (i + 1) 0 * A.entry 0 (j + 1) / A.entry 0 0 =
          A.entry (j + 1) (i + 1) - A.entry (j + 1) 0 * A.entry 0 (i + 1) / A.entry 0 0
        rw [hsym (i + 1) (j + 1), hsym (i + 1) 0, hsym (j + 1) 0]
        ring
      · exact schur_pd m A hsym h00 hPD

/-- Given positive pivots, the recurrence reconstructs `A` exactly:
`Σ_k L[i][k]·L[j][k] = A[i][j]` for `j ≤ i < n`. -/
theorem cholL_recon {α : Type} [LinearOrderedField α] (sqrt : α → α) (A : Mat α)
    (n : Nat) (hsq : ∀ x : α, 0 < x → sqrt x * sqrt x = x)
    (hd : ∀ j, j < n → 0 < cholDiag sqrt A j) (i j : Nat) (hi : i < n)
    (hj : j ≤ i) :
    (∑ k in Finset.range n, cholL sqrt A i k * cholL sqrt A j k) = A.entry i j := by
  have hsplit : (∑ k in Finset.range n, cholL sqrt A i k * cholL sqrt A j k) =
      ∑ k in Finset.range (j + 1), cholL sqrt A i k * cholL sqrt A j k := by
    rw [Finset.range_eq_Ico,
      ← Finset.sum_Ico_consecutive _ (by omega : 0 ≤ j + 1) (by omega : j + 1 ≤ n)]
    have : (∑ k in Finset.Ico (j + 1) n, cholL sqrt A i k * cholL sqrt A j k) = 0 := by
      refine Finset.sum_eq_zero (fun k hk => ?_)
      rw [Finset.mem_Ico] at hk
      rw [cholL_above sqrt A j k (by omega), mul_zero]
    rw [this, add_zero]
  rw [hsplit, Finset.sum_range_succ]
  have hdj : 0 < cholDiag sqrt A j := hd j (by omega)
  have hsqj : sqrt (cholDiag sqrt A j) * sqrt (cholDiag sqrt A j) = cholDiag sqrt A j :=
    hsq _ hdj
  have hsqrt_ne : sqrt (cholDiag sqrt A j) ≠ 0 := by
    intro h
    rw [h, mul_zero] at hsqj
    exact absurd hsqj.symm (ne_of_gt hdj)
  rcases Nat.lt_or_ge j i with hji | hji
  · -- j < i : off-diagonal
    rw [cholL_below sqrt A i j hji, cholL_diag]
    rw [div_mul_cancel₀ _ hsqrt_ne]
    rw [cholDiag] at *
    ring
  · -- j = i : diagonal
    have : j = i := by omega
    subst this
    rw [cholL_diag, hsqj, cholDiag]
    ring

/-- Pivot positivity from symmetry and positive definiteness stated over
the in-range entries only (the matrix is symmetrised outside its range,
which changes no pivot). -/
theorem chol_pivots_top {α : Type} [LinearOrderedField α] (sqrt : α → α)
    (hsq : ∀ x : α, 0 < x → sqrt x * sqrt x = x) (A : Mat α)
    (hsymR : ∀ i j, i < A.rows → j < A.rows → A.entry i j = A.entry j i)
    (hPD : ∀ x : Nat → α, (∃ i, i < A.rows ∧ x i ≠ 0) →
      0 < ∑ i in Finset.range A.rows, ∑ j in Finset.range A.rows,
        x i * A.entry i j * x j) :
    ∀ j, j < A.rows → 0 < cholDiag sqrt A j := by
  set A' : Mat α := ⟨A.rows, A.rows,
    fun i j => if i < A.rows ∧ j < A.rows then A.entry i j else 0⟩ with hA'
  have hagree : ∀ r c, r < A.rows → c < A.rows → A.entry r c = A'.entry r c := by
    intro r c hr hc
    show A.entry r c = (if r < A.rows ∧ c < A.rows then A.entry r c else 0)
    rw [if_pos ⟨hr, hc⟩]
  have hsym' : ∀ i j, A'.entry i j = A'.entry j i := by
    intro i j
    show (if i < A.rows ∧ j < A.rows then A.entry i j else 0) =
      (if j < A.rows ∧ i < A.rows then A.entry j i else 0)
    by_cases h : i < A.rows ∧ j < A.rows
    · rw [if_pos h, if_pos ⟨h.2, h.1⟩]
      exact hsymR i j h.1 h.2
    · rw [if_neg h, if_neg (by tauto)]
  have hPD' : ∀ x : Nat → α, (∃ i, i < A.rows ∧ x i ≠ 0) →
      0 < ∑ i in Finset.range A.rows, ∑ j in Finset.range A.rows,
        x i * A'.entry i j * x j := by
    intro x hx
    have := hPD x hx
    calc (0 : α) < ∑ i in Finset.range A.rows, ∑ j in Finset.range A.rows,
          x i * A.entry i j * x j := this
      _ = _ := by
        refine Finset.sum_congr rfl (fun i hi => Finset.sum_congr rfl (fun j hj => ?_))
        rw [Finset.mem_range] at hi hj
        rw [hagree i j hi hj]
  intro j hj
  rw [cholDiag_congr sqrt A A' A.rows hagree j hj]
  exact pd_pivots sqrt hsq A.rows A' hsym' hPD' j hj

/-! ### Helper: panel-column error characterisation -/

/-- One panel column of `detail::_plu` throws (the near-zero-pivot
`std::runtime_error`) exactly when the scanned column maximum `max_val` is
within `1e-9` of zero. -/
theorem pluPanelCol_sing_iff {α : Type} [LinearOrderedField α]
    (n block_end i : Nat) (st : PluSt α) :
    (pluPanelCol n block_end st i =
        .error (.runtime_error "Matrix is singular; pivot is near zero.")) ↔
      is_close (findPivot st.U n i).1 0 EPS9 = true := by
  simp only [pluPanelCol]
  by_cases hcl : is_close (findPivot st.U n i).1 0 EPS9 = true
  · rw [if_pos hcl]
    simp [hcl]
  · rw [if_neg hcl]
    simp [hcl]

/-! ### The claims -/

/-- Claim C1: for every square symmetric positive-definite matrix `A` (with
`A.rows > 0`, the invariant every constructed `Matrix` carries),
`cholesky` succeeds and returns a lower-triangular `L` of matching size with
`L·Lᵗ` equal to `A` entrywise within the stated `1e-6` tolerance (here the
reconstruction is exact, so within any positive tolerance). -/
theorem claim_C1 (A : Mat ℝ) (hsquare : A.rows = A.cols)
    (hsym : ∀ i j, i < A.rows → j < A.rows → A.entry i j = A.entry j i)
    (hPD : ∀ x : Nat → ℝ, (∃ i, i < A.rows ∧ x i ≠ 0) →
      0 < ∑ i in Finset.range A.rows, ∑ j in Finset.range A.rows,
        x i * A.entry i j * x j)
    (hn : 0 < A.rows) :
    ∃ L, cholesky Real.sqrt A = .ok L ∧
      L.rows = A.rows ∧ L.cols = A.rows ∧
      (∀ i j, i < j → j < A.rows → L.entry i j = 0) ∧
      (∀ i j, i < A.rows → j < A.rows →
        |(matMul L L.transposed).entry i j - A.entry i j| < 1 / 1000000) := by
  have hsq : ∀ x : ℝ, 0 < x → Real.sqrt x * Real.sqrt x = x :=
    fun x hx => Real.mul_self_sqrt hx.le
  have hd := chol_pivots_top Real.sqrt hsq A hsym hPD
  have hsymb : A.is_symmetric = true := by
    rw [is_symmetric_iff]
    refine ⟨hsquare, fun i j hi hij hj => ?_⟩
    rw [hsym i j hi (by omega), sub_self, abs_zero]
    norm_num [EPSILON]
  obtain ⟨L, hok, hcd⟩ := cholesky_ok_all_pos Real.sqrt A hsymb hn hd
  obtain ⟨hr, hc, hdone, hzero⟩ := hcd
  refine ⟨L, hok, hr, hc, ?_, ?_⟩
  · intro i j hij hj
    rw [hdone i j (by omega) hj, cholL_above Real.sqrt A i j hij]
  · intro i j hi hj
    have hmul : (matMul L L.transposed).entry i j =
        ∑ k in Finset.range L.cols, L.entry i k * L.entry j k := rfl
    rw [hmul, hc]
    have hsum : (∑ k in Finset.range A.rows, L.entry i k * L.entry j k) =
        ∑ k in Finset.range A.rows, cholL Real.sqrt A i k * cholL Real.sqrt A j k := by
      refine Finset.sum_congr rfl (fun k hk => ?_)
      rw [Finset.mem_range] at hk
      rw [hdone i k hi hk, hdone j k hj hk]
    rw [hsum]
    rcases Nat.le_total j i with hji | hij
    · rw [cholL_recon Real.sqrt A A.rows hsq hd i j hi hji, sub_self, abs_zero]
      norm_num
    · have : (∑ k in Finset.range A.rows,
          cholL Real.sqrt A i k * cholL Real.sqrt A j k) =
          ∑ k in Finset.range A.rows, cholL Real.sqrt A j k * cholL Real.sqrt A i k :=
        Finset.sum_congr rfl (fun k _ => mul_comm _ _)
      rw [this, cholL_recon Real.sqrt A A.rows hsq hd j i hj hij,
        hsym j i hj hi, sub_self, abs_zero]
      norm_num

/-- Witness for C1: the 1×1 identity input. -/
theorem claim_C1_witness :
    (0 < (Mat.ofLists 1 1 ([[1]] : List (List ℝ))).rows) ∧
    (∃ L, cholesky Real.sqrt (Mat.ofLists 1 1 ([[1]] : List (List ℝ))) = .ok L ∧
      L.rows = (Mat.ofLists 1 1 ([[1]] : List (List ℝ))).rows ∧
      L.cols = (Mat.ofLists 1 1 ([[1]] : List (List ℝ))).rows ∧
      (∀ i j, i < j → j < (Mat.ofLists 1 1 ([[1]] : List (List ℝ))).rows →
        L.entry i j = 0) ∧
      (∀ i j, i < (Mat.ofLists 1 1 ([[1]] : List (List ℝ))).rows →
        j < (Mat.ofLists 1 1 ([[1]] : List (List ℝ))).rows →
        |(matMul L L.transposed).entry i j -
          (Mat.ofLists 1 1 ([[1]] : List (List ℝ))).entry i j| < 1 / 1000000)) := by
  refine ⟨by norm_num [Mat.ofLists], claim_C1 _ rfl ?_ ?_ (by norm_num [Mat.ofLists])⟩
  · intro i j hi hj
    have hi0 : i = 0 := by
      simpa [Mat.ofLists] using hi
    have hj0 : j = 0 := by
      simpa [Mat.ofLists] using hj
    subst hi0
    subst hj0
    rfl
  · rintro x ⟨i, hi, hx⟩
    have hi0 : i = 0 := by
      simpa [Mat.ofLists] using hi
    subst hi0
    show 0 < ∑ i in Finset.range 1, ∑ j in Finset.range 1,
      x i * (Mat.ofLists 1 1 ([[1]] : List (List ℝ))).entry i j * x j
    simp only [Finset.sum_range_one]
    have h1 : (Mat.ofLists 1 1 ([[1]] : List (List ℝ))).entry 0 0 = 1 := by
      norm_num [Mat.ofLists]
    rw [h1, mul_one]
    exact mul_self_pos.mpr hx

/-- Claim C2: `cholesky` throws its symmetry `std::invalid_argument` exactly
on inputs failing `is_symmetric()` (checked up front, before any
factorisation work), and it throws the not-positive-definite error exactly
when the input passes the symmetry check and some column `j` has
`diag = A[j][j] - Σ_{k<j} L[j][k]² ≤ 0` (the recurrence value `cholDiag`);
there is no separate positive-definiteness pre-check. -/
theorem claim_C2 {α : Type} [LinearOrderedField α] (sqrt : α → α) (A : Mat α) :
    (cholesky sqrt A =
        .error (.invalid_argument "Matrix must be symmetric to try Cholesky decomposition!") ↔
      A.is_symmetric = false) ∧
    (cholesky sqrt A = .error (.invalid_argument "Matrix is not positive definite!") ↔
      (A.is_symmetric = true ∧ ∃ j, j < A.rows ∧ cholDiag sqrt A j ≤ 0)) :=
  ⟨cholesky_symm_error_iff sqrt A, cholesky_pd_error_iff sqrt A⟩

/-- Claim C3, corrected: the near-zero-pivot failure of `plu` is indeed a
distinct error kind (`std::runtime_error`, while its precondition violation
is `std::invalid_argument`), but the not-positive-definite failure of
`cholesky` is `std::invalid_argument` — the same class as its precondition
errors — so the claimed distinction holds for PLU only. -/
theorem claim_C3 {α : Type} [LinearOrderedField α] :
    (∀ A : Mat α, A.is_square = false →
      plu A = .error (.invalid_argument "Matrix must be square for PLU decomposition!")) ∧
    (∀ (A : Mat α) (e : CppError), A.is_square = true → plu A = .error e →
      e = .runtime_error "Matrix is singular; pivot is near zero.") ∧
    (∀ (sqrt : α → α) (A : Mat α) (e : CppError), cholesky sqrt A = .error e →
      e.isInvalidArgument = true) := by
  refine ⟨plu_not_square, plu_square_error_eq, ?_⟩
  intro sqrt A e h
  rcases cholesky_error_cases sqrt A e h with h' | h' | h' <;> rw [h'] <;> rfl

/-- Witness for C3: a non-square input to `plu`, a singular square input to
`plu`, and the concrete non-positive-pivot run of `cholesky`. -/
theorem claim_C3_witness :
    (Mnonsq.is_square = false ∧
      plu Mnonsq = .error (.invalid_argument "Matrix must be square for PLU decomposition!")) ∧
    (MnotPD.is_square = true ∧
      (CppError.runtime_error "Matrix is singular; pivot is near zero.") =
        .runtime_error "Matrix is singular; pivot is near zero.") ∧
    (CppError.invalid_argument "Matrix is not positive definite!").isInvalidArgument = true := by
  refine ⟨⟨by decide, (@claim_C3 ℚ _).1 Mnonsq (by decide)⟩,
    ⟨by decide, (@claim_C3 ℚ _).2.1 MnotPD _ (by decide) (by with_unfolding_all rfl)⟩,
    (@claim_C3 ℚ _).2.2 (fun q : ℚ => q) MnotPD _ (by with_unfolding_all rfl)⟩

/-- Counterexample for C3 as stated: on a symmetric 1×1 input with a
non-positive pivot, `cholesky`'s numerical-infeasibility error is
`std::invalid_argument` — the very class used for its precondition
violations (shown on a non-symmetric input) — not a distinct kind. -/
theorem claim_C3_counterexample :
    cholesky (fun q : ℚ => q) MnotPD =
      .error (.invalid_argument "Matrix is not positive definite!") ∧
    cholesky (fun q : ℚ => q) Mnonsym =
      .error (.invalid_argument "Matrix must be symmetric to try Cholesky decomposition!") ∧
    (CppError.invalid_argument "Matrix is not positive definite!").isInvalidArgument =
      (CppError.invalid_argument
        "Matrix must be symmetric to try Cholesky decomposition!").isInvalidArgument :=
  ⟨by with_unfolding_all rfl, by with_unfolding_all rfl, rfl⟩

/-- Claim C4: in the panel factorisation of `plu`, column `i` is scanned
over rows `i..n-1` for the maximum-magnitude entry (`findPivot`); the
near-zero singular-matrix error is thrown exactly when that maximum is
within `1e-9` of zero; and when the selected pivot row `p` differs from
`i`, the swap exchanges the full rows `i` and `p` of the working matrix,
the first `i` entries of rows `i` and `p` of `L` (columns `≥ i` untouched),
and entries `i` and `p` of the permutation vector. -/
theorem claim_C4 {α : Type} [LinearOrderedField α] (n block_end i : Nat)
    (st : PluSt α) (hin : i < n) (hP : st.P.length = n) :
    (i ≤ (findPivot st.U n i).2 ∧ (findPivot st.U n i).2 < n ∧
      (findPivot st.U n i).1 = |st.U.entry (findPivot st.U n i).2 i| ∧
      ∀ j, i ≤ j → j < n → |st.U.entry j i| ≤ (findPivot st.U n i).1) ∧
    (pluPanelCol n block_end st i =
        .error (.runtime_error "Matrix is singular; pivot is near zero.") ↔
      |(findPivot st.U n i).1 - 0| < EPS9) ∧
    (∀ p, p = (findPivot st.U n i).2 → p ≠ i →
      ((pluApplySwaps st i p).P.getD i 0 = st.P.getD p 0 ∧
        (pluApplySwaps st i p).P.getD p 0 = st.P.getD i 0) ∧
      (∀ c, (pluApplySwaps st i p).U.entry i c = st.U.entry p c ∧
        (pluApplySwaps st i p).U.entry p c = st.U.entry i c) ∧
      (∀ c, c < i → (pluApplySwaps st i p).L.entry i c = st.L.entry p c ∧
        (pluApplySwaps st i p).L.entry p c = st.L.entry i c) ∧
      (∀ r c, i ≤ c → (pluApplySwaps st i p).L.entry r c = st.L.entry r c)) := by
  obtain ⟨f1, f2, f3, f4⟩ := findPivot_spec st.U n i hin
  refine ⟨⟨f1, f2, f3, f4⟩, ?_, ?_⟩
  · rw [pluPanelCol_sing_iff, is_close_iff]
  · intro p hp hpi
    have hpl : p < st.P.length := by rw [hP]; omega
    have hil : i < st.P.length := by rw [hP]; omega
    obtain ⟨⟨s1, s2, _⟩, sU, sL, sLhi⟩ := pluApplySwaps_spec st i p hil hpl
    exact ⟨⟨s1, s2⟩, fun c => ⟨(sU c).1, (sU c).2.1⟩,
      fun c hc => ⟨(sL c hc).1, (sL c hc).2.1⟩, sLhi⟩

/-- Witness for C4 at a concrete state: `n = 2`, column `0` of the working
matrix `[[0, 1], [2, 0]]` selects pivot row 1. -/
theorem claim_C4_witness :
    ((0 : Nat) < 2 ∧ pivotSt.P.length = 2) ∧
    ((0 ≤ (findPivot pivotSt.U 2 0).2 ∧ (findPivot pivotSt.U 2 0).2 < 2 ∧
      (findPivot pivotSt.U 2 0).1 = |pivotSt.U.entry (findPivot pivotSt.U 2 0).2 0| ∧
      ∀ j, 0 ≤ j → j < 2 → |pivotSt.U.entry j 0| ≤ (findPivot pivotSt.U 2 0).1) ∧
    (pluPanelCol 2 2 pivotSt 0 =
        .error (.runtime_error "Matrix is singular; pivot is near zero.") ↔
      |(findPivot pivotSt.U 2 0).1 - 0| < EPS9) ∧
    (∀ p, p = (findPivot pivotSt.U 2 0).2 → p ≠ 0 →
      ((pluApplySwaps pivotSt 0 p).P.getD 0 0 = pivotSt.P.getD p 0 ∧
        (pluApplySwaps pivotSt 0 p).P.getD p 0 = pivotSt.P.getD 0 0) ∧
      (∀ c, (pluApplySwaps pivotSt 0 p).U.entry 0 c = pivotSt.U.entry p c ∧
        (pluApplySwaps pivotSt 0 p).U.entry p c = pivotSt.U.entry 0 c) ∧
      (∀ c, c < 0 → (pluApplySwaps pivotSt 0 p).L.entry 0 c = pivotSt.L.entry p c ∧
        (pluApplySwaps pivotSt 0 p).L.entry p c = pivotSt.L.entry 0 c) ∧
      (∀ r c, 0 ≤ c → (pluApplySwaps pivotSt 0 p).L.entry r c = pivotSt.L.entry r c))) :=
  ⟨⟨by decide, by decide⟩, claim_C4 2 2 0 pivotSt (by decide) (by decide)⟩

/-- Claim C5: whenever `plu` succeeds on an `n×n` matrix (`n > 0`), the
returned `P` is a length-`n` permutation of `0..n-1`, `L` is
unit-lower-triangular and `U` is upper-triangular. -/
theorem claim_C5 {α : Type} [LinearOrderedField α] (A : Mat α)
    (P : List Nat) (L U : Mat α) (hn : 0 < A.rows)
    (hrun : plu A = .ok (P, L, U)) :
    (P.length = A.rows ∧ P.Perm (List.range A.rows)) ∧
    (L.rows = A.rows ∧ L.cols = A.rows ∧
      (∀ i, i < A.rows → L.entry i i = 1) ∧
      (∀ i j, i < j → j < A.rows → L.entry i j = 0)) ∧
    (U.rows = A.rows ∧ U.cols = A.rows ∧
      (∀ i j, j < i → i < A.rows → U.entry i j = 0)) :=
  plu_ok_struct A P L U hn hrun

/-- Witness for C5: the concrete successful run of `plu` on `Mpd2`. -/
theorem claim_C5_witness :
    (0 < Mpd2.rows ∧ plu Mpd2 = .ok (pluW.1, pluW.2.1, pluW.2.2)) ∧
    ((pluW.1.length = Mpd2.rows ∧ pluW.1.Perm (List.range Mpd2.rows)) ∧
    (pluW.2.1.rows = Mpd2.rows ∧ pluW.2.1.cols = Mpd2.rows ∧
      (∀ i, i < Mpd2.rows → pluW.2.1.entry i i = 1) ∧
      (∀ i j, i < j → j < Mpd2.rows → pluW.2.1.entry i j = 0)) ∧
    (pluW.2.2.rows = Mpd2.rows ∧ pluW.2.2.cols = Mpd2.rows ∧
      (∀ i j, j < i → i < Mpd2.rows → pluW.2.2.entry i j = 0))) := by
  have hrun : plu Mpd2 = .ok (pluW.1, pluW.2.1, pluW.2.2) := by with_unfolding_all rfl
  exact ⟨⟨by decide, hrun⟩, claim_C5 Mpd2 pluW.1 pluW.2.1 pluW.2.2 (by decide) hrun⟩

/-- Claim C6: `QR_decompostion` fails exactly on an input with zero rows or
zero columns, and then only with the empty-matrix `std::invalid_argument`;
it has no singularity error, and a column `j` whose sub-diagonal sum of
squares `sigma` is zero stores `tau = 0` and leaves the working matrix
unchanged (the reflector application is skipped). -/
theorem claim_C6 {α : Type} [LinearOrderedField α] (sqrt : α → α) (A : Mat α)
    (full_Q full_R : Bool) :
    ((∃ e, QR_decompostion sqrt A full_Q full_R = .error e) ↔
      (A.rows = 0 ∨ A.cols = 0)) ∧
    (∀ e, QR_decompostion sqrt A full_Q full_R = .error e →
      e = .invalid_argument "Cannot perform QR decomposition on empty matrix!") ∧
    (∀ (m n j : Nat) (W : Mat α) (tau : List α), W.rows = m → j < m →
      sumRange (j + 1) m (fun i => W.entry i j * W.entry i j) = 0 →
      qrStep sqrt m n (W, tau) j = .ok (W, tau.set j 0)) := by
  refine ⟨(QR_error_iff sqrt A full_Q full_R).1, (QR_error_iff sqrt A full_Q full_R).2, ?_⟩
  intro m n j W tau hm hj hs
  exact qrStep_sigma_zero sqrt m n j W tau hm hj hs

/-- Witness for C6: the empty matrix error run, and a zero-`sigma` column
on the identity working matrix. -/
theorem claim_C6_witness :
    ((Mat.empty ℚ).rows = 0 ∨ (Mat.empty ℚ).cols = 0) ∧
    ((CppError.invalid_argument "Cannot perform QR decomposition on empty matrix!") =
      .invalid_argument "Cannot perform QR decomposition on empty matrix!") ∧
    (W2q.rows = 2 ∧ (0 : Nat) < 2 ∧
      sumRange (0 + 1) 2 (fun i => W2q.entry i 0 * W2q.entry i 0) = 0 ∧
      qrStep (fun q : ℚ => q) 2 2 (W2q, [0, 0]) 0 = .ok (W2q, ([0, 0] : List ℚ).set 0 0)) := by
  refine ⟨Or.inl rfl, ?_, rfl, by decide, by with_unfolding_all decide, ?_⟩
  · exact (claim_C6 (fun q : ℚ => q) (Mat.empty ℚ) false false).2.1 _ rfl
  · exact (claim_C6 (fun q : ℚ => q) W2q false false).2.2 2 2 0 W2q [0, 0] rfl (by decide)
      (by with_unfolding_all decide)

/-- Claim C7: for a matrix view `A` and vector view `x` of compatible
length, the manual `gemv` paths return a vector of length `A.rows`
(NoTrans) with `y[i] = Σ_j A[i][j]·x[j]`, respectively length `A.cols`
(Trans) with `y[j] = Σ_i A[i][j]·x[i]`; `castT`/`castU` are the
`static_cast`s of both element types into their common promoted type `R`,
which is the element type of the result. -/
theorem claim_C7 {T U R : Type} [CommSemiring R] (castT : T → R) (castU : U → R)
    (A : MView T) (x : VView U) :
    (x.size = A.cols →
      (kernels.gemv castT castU kernels.OP.NoTrans A x).size = A.rows ∧
      ∀ i, (kernels.gemv castT castU kernels.OP.NoTrans A x).entry i =
        ∑ j in Finset.range A.cols, castT (A.entry i j) * castU (x.entry j)) ∧
    (x.size = A.rows →
      (kernels.gemv castT castU kernels.OP.Trans A x).size = A.cols ∧
      ∀ j, (kernels.gemv castT castU kernels.OP.Trans A x).entry j =
        ∑ i in Finset.range A.rows, castT (A.entry i j) * castU (x.entry i)) := by
  obtain ⟨⟨n1, _, n3⟩, ⟨t1, _, t3⟩⟩ := gemv_spec castT castU A x
  refine ⟨fun _ => ⟨n1, n3⟩, fun _ => ⟨t1, fun j => ?_⟩⟩
  rw [t3 j]
  exact Finset.sum_congr rfl (fun i _ => mul_comm _ _)

/-- Witness for C7: both `gemv` orientations on a concrete square 2×2 view
and length-2 vector view. -/
theorem claim_C7_witness :
    (xview.size = Aview.cols ∧
      ((kernels.gemv (id : ℚ → ℚ) (id : ℚ → ℚ) kernels.OP.NoTrans Aview xview).size =
        Aview.rows ∧
      ∀ i, (kernels.gemv (id : ℚ → ℚ) (id : ℚ → ℚ) kernels.OP.NoTrans Aview xview).entry i =
        ∑ j in Finset.range Aview.cols, id (Aview.entry i j) * id (xview.entry j))) ∧
    (xview.size = Aview.rows ∧
      ((kernels.gemv (id : ℚ → ℚ) (id : ℚ → ℚ) kernels.OP.Trans Aview xview).size =
        Aview.cols ∧
      ∀ j, (kernels.gemv (id : ℚ → ℚ) (id : ℚ → ℚ) kernels.OP.Trans Aview xview).entry j =
        ∑ i in Finset.range Aview.rows, id (Aview.entry i j) * id (xview.entry i))) :=
  ⟨⟨rfl, (claim_C7 (id : ℚ → ℚ) (id : ℚ → ℚ) Aview xview).1 rfl⟩,
   ⟨rfl, (claim_C7 (id : ℚ → ℚ) (id : ℚ → ℚ) Aview xview).2 rfl⟩⟩

/-- Claim C8, code bug: `kernels::dot` does throw the size-mismatch
`std::invalid_argument` exactly when the sizes differ, but on the manual
fallback path the function accumulates the dot product into the local
`result` and never returns it — the function body ends without a `return`
statement, so its deduced return type is `void` and no value is produced.
On `x = {1,2,3}`, `y = {4,5,6}` the call returns nothing while the
accumulated local value is `32`. -/
theorem claim_C8 :
    (∀ {T U : Type} (x : VView T) (y : VView U),
      kernels.dot x y =
          .error (.invalid_argument "Vectors must be of same size for dot product!") ↔
        x.size ≠ y.size) ∧
    (∀ {T U : Type} (x : VView T) (y : VView U), x.size = y.size →
      kernels.dot x y = .ok ()) ∧
    kernels.dot x3q y3q = .ok () ∧
    kernels.dot_fallback_result (id : ℚ → ℚ) (id : ℚ → ℚ) x3q y3q = 32 := by
  refine ⟨?_, ?_, rfl, by with_unfolding_all decide⟩
  · intro T U x y
    constructor
    · intro h
      by_contra hne
      rw [(dot_spec x y).2 hne] at h
      exact absurd h (by simp)
    · exact (dot_spec x y).1
  · intro T U x y h
    exact (dot_spec x y).2 h

/-- Witness for C8: the size-match hypothesis at the concrete vectors. -/
theorem claim_C8_witness :
    x3q.size = y3q.size ∧ kernels.dot x3q y3q = .ok () :=
  ⟨rfl, claim_C8.2.1 x3q y3q rfl⟩

/-- Claim C9: the default-constructed matrix is 0×0 although both
dimensioned constructors reject zero dimensions, and `plu` on the 0×0
matrix succeeds, returning an empty permutation and empty `L`, `U`. -/
theorem claim_C9 {α : Type} [LinearOrderedField α] :
    ((Mat.empty α).rows = 0 ∧ (Mat.empty α).cols = 0) ∧
    (∀ rows cols : Nat,
      Mat.create α rows cols =
          .error (.invalid_argument "Matrix dimensions must be greater than zero.") ↔
        (rows = 0 ∨ cols = 0)) ∧
    (∀ (rows cols : Nat) (data : List α), rows = 0 ∨ cols = 0 →
      Mat.createFromVec α rows cols data =
        .error (.invalid_argument "Matrix dimensions must be greater than zero.")) ∧
    plu (Mat.empty α) = .ok ([], Mat.empty α, Mat.empty α) :=
  ⟨⟨rfl, rfl⟩, create_error_iff α, createFromVec_zero α, rfl⟩

/-- Witness for C9: the zero-dimension constructor rejection at concrete
dimensions `0 × 5`. -/
theorem claim_C9_witness :
    ((0 : Nat) = 0 ∨ (5 : Nat) = 0) ∧
    Mat.createFromVec ℚ 0 5 [] =
      .error (.invalid_argument "Matrix dimensions must be greater than zero.") :=
  ⟨Or.inl rfl, (@claim_C9 ℚ _).2.2.1 0 5 [] (Or.inl rfl)⟩

/-- Claim C10: `is_symmetric()` accepts exactly the square matrices all of
whose strictly-upper pairs agree within the strict `1e-6` tolerance, and
`cholesky`'s up-front symmetry rejection fires exactly when `is_symmetric()`
is false — so `cholesky` proceeds on approximately symmetric inputs. -/
theorem claim_C10 {α : Type} [LinearOrderedField α] (A : Mat α) :
    (A.is_symmetric = true ↔
      (A.rows = A.cols ∧ ∀ i j, i < A.rows → i < j → j < A.cols →
        |A.entry i j - A.entry j i| < 1 / 1000000)) ∧
    (∀ sqrt : α → α,
      cholesky sqrt A =
          .error (.invalid_argument "Matrix must be symmetric to try Cholesky decomposition!") ↔
        A.is_symmetric = false) := by
  constructor
  · have h := is_symmetric_iff A
    simp only [EPSILON] at h
    exact h
  · intro sqrt
    exact cholesky_symm_error_iff sqrt A

end maf
